import Mathlib

/-!
Verification of the hierarchical job scheduler, codec registry, result
writer and runner configuration of the google-maps-scraper repository.

Each Go function named below is translated into an executable Lean
definition; SQL effects are modelled as explicit state passing over the
rows the queries touch.  Machine integers of the Go code are modelled as
Nat or Int (no overflow is reachable in the modelled quantities), JSON
documents as an inductive tree, and fallible code as Except or Option.
-/

namespace Backoff

/-- Base delay of the lease-loop backoff, in seconds (source: fetchJobs,
baseDelay := time.Second). -/
def baseDelay : Nat := 1

/-- Maximal delay of the lease-loop backoff, in seconds (source: fetchJobs,
maxDelay := time.Minute). -/
def maxDelay : Nat := 60

/-- Delay update performed after sleeping on an empty poll (source:
fetchJobs: currentDelay = currentDelay * factor with factor = 2, then
capped at maxDelay).  Delays are whole seconds here; the Go code stores
nanoseconds and multiplies via float64, which is exact on the reachable
values 1,2,4,...,60 s. -/
def nextDelay (d : Nat) : Nat := if d * 2 > maxDelay then maxDelay else d * 2

/-- Outcome of one iteration of the lease loop on the backoff state:
the delay carried to the next iteration and the sleep performed, if any. -/
structure PollStep where
  newDelay : Nat
  sleep : Option Nat
deriving Repr, DecidableEq

/-- One iteration of the lease loop of the codec-registry provider
(source: provider.fetchJobs in the file defining the provider with
statusManager and codecRegistry fields): a non-empty poll delivers jobs and
resets currentDelay to baseDelay; an empty poll sleeps currentDelay and then
doubles it, capped at maxDelay. -/
def fetchStep (d : Nat) (nonempty : Bool) : PollStep :=
  if nonempty then ⟨baseDelay, none⟩ else ⟨nextDelay d, some d⟩

/-- One iteration of the lease loop of the legacy provider (source:
provider.fetchJobs in postgres/provider.go): identical on empty polls, but a
non-empty poll leaves currentDelay unchanged (no reset to baseDelay). -/
def legacyFetchStep (d : Nat) (nonempty : Bool) : PollStep :=
  if nonempty then ⟨d, none⟩ else ⟨nextDelay d, some d⟩

end Backoff

namespace Runner

/-- Default value of the concurrency flag (source: runner.ParseConfig,
flag.IntVar(&cfg.Concurrency, "c", min(runtime.NumCPU()/2, 1), ...)).
Note the source computes min, not max. -/
def defaultConcurrency (numCPU : Nat) : Nat := min (numCPU / 2) 1

/-- The configuration fields inspected by ParseConfig validation. -/
structure Config where
  concurrency : Int
  maxDepth : Int
  zoom : Int
  dsn : String

/-- Whether ParseConfig panics (terminates the process with non-zero exit)
on the given configuration (source: runner.ParseConfig, the four panic
guards following flag.Parse()). -/
def configPanics (c : Config) : Bool :=
  (c.concurrency < 1) || (c.maxDepth < 1) || (c.zoom < 0) || (c.zoom > 21) ||
    (c.dsn = "")

end Runner

namespace Push

/-- The slice of store state touched by pushChildJobs for one parent:
the set of job ids already present in gmaps_jobs, and the parent row's
counters. -/
structure PushSt where
  existing : List String
  count : Nat
  completed : Nat
  failed : Nat

/-- Source: provider.pushJobWithParent (postgres/wrapper.go).  The INSERT
with ON CONFLICT DO NOTHING affects zero rows exactly when the child id is
already present; in that case the parent's child_jobs_failed is incremented
in the same transaction and no row is added. -/
def pushJobWithParent (st : PushSt) (childId : String) : PushSt :=
  if childId ∈ st.existing then { st with failed := st.failed + 1 }
  else { st with existing := childId :: st.existing }

/-- Source: provider.pushChildJobs (postgres/wrapper.go).  Early return on
an empty batch; otherwise one transaction that first adds the batch size to
the parent's child_jobs_count and then inserts each child via
pushJobWithParent. -/
def pushChildJobs (st : PushSt) (children : List String) : PushSt :=
  if children = [] then st
  else children.foldl pushJobWithParent { st with count := st.count + children.length }

/-- Number of children of the batch whose INSERT conflicts (id already
present), accounting for ids inserted earlier in the same batch. -/
def numConflicts (existing : List String) : List String → Nat
  | [] => 0
  | c :: cs =>
      if c ∈ existing then 1 + numConflicts existing cs
      else numConflicts (c :: existing) cs

/-- Number of children of the batch actually inserted. -/
def numInserted (existing : List String) : List String → Nat
  | [] => 0
  | c :: cs =>
      if c ∈ existing then numInserted existing cs
      else 1 + numInserted (c :: existing) cs

end Push

namespace Writer

/-- One row of the results table, mirroring the dbEntry struct of
postgres/resultwriter.go. -/
structure DbEntry where
  userID : String
  organizationID : String
  link : String
  payloadType : String
  title : String
  category : String
  address : String
  website : String
  phone : String
  emails : List String
deriving Repr, DecidableEq

/-- Source: resultWriter.checkDuplicateURL (postgres/resultwriter.go).
COUNT(*) > 0 over the results table is modelled as List.any over the rows;
an empty url or an empty tenant pair disables the check (returns false). -/
def checkDuplicateURL (rows : List DbEntry) (url userID organizationID : String) :
    Bool :=
  if url = "" then false
  else if userID ≠ "" ∧ organizationID ≠ "" then
    rows.any fun r =>
      r.link = url ∧ (r.userID = userID ∨ r.organizationID = organizationID)
  else if userID ≠ "" then
    rows.any fun r => r.link = url ∧ r.userID = userID
  else if organizationID ≠ "" then
    rows.any fun r => r.link = url ∧ r.organizationID = organizationID
  else false

/-- State of the result writer: the committed results table and the
in-memory buffer. -/
structure WriterSt where
  results : List DbEntry
  buffer : List DbEntry

/-- Source: the per-record path of resultWriter.Run: the duplicate-URL
check runs against the committed table before buffering and suppresses the
record when it reports a duplicate. -/
def processRecord (st : WriterSt) (e : DbEntry) : WriterSt :=
  if checkDuplicateURL st.results e.link e.userID e.organizationID then st
  else { st with buffer := st.buffer ++ [e] }

/-- Source: resultWriter.batchSave followed by buff = buff[:0] in Run: a
successful flush commits every buffered row in one transaction and clears
the buffer. -/
def flushBatch (st : WriterSt) : WriterSt :=
  { results := st.results ++ st.buffer, buffer := [] }

/-- Number of rows of the table carrying exactly this link and tenant. -/
def matchCount (rows : List DbEntry) (link userID organizationID : String) : Nat :=
  (rows.filter fun r =>
    r.link = link ∧ r.userID = userID ∧ r.organizationID = organizationID).length

end Writer


namespace Codec

/-- A parsed JSON document.  Numbers are modelled as rationals: every JSON
number the codecs read is passed through float64 in Go, and all values
reachable here (small integers) are exact. -/
inductive JValue where
  | null
  | jbool (b : Bool)
  | jnum (q : Rat)
  | jstr (s : String)
  | jarr (xs : List JValue)
  | jobj (fields : List (String × JValue))

/-- Indexing a Go map decoded from JSON: metadata[k].  Keys of a decoded
JSON object are unique, so first-match lookup is faithful. -/
def mlookup (md : List (String × JValue)) (k : String) : Option JValue :=
  (md.find? (fun p => p.1 = k)).map (fun p => p.2)

/-- Truncation toward zero, the semantics of Go's int(floatValue). -/
def ratTrunc (q : Rat) : Int :=
  if q < 0 then -(Int.floor (-q)) else Int.floor q

/-- Source: getIntFromMetadata (codec registry file): the value must be a
JSON number (float64 after unmarshal) and is truncated to int. -/
def getIntFromMetadata (md : List (String × JValue)) (k : String) :
    Except String Int :=
  match mlookup md k with
  | none => .error ("missing key " ++ k ++ " in metadata")
  | some (.jnum q) => .ok (ratTrunc q)
  | some _ => .error ("value for key " ++ k ++ " is not a number")

/-- A Go type assertion metadata[k].(string): fails when the key is absent
or the value is not a JSON string. -/
def getStrMeta (md : List (String × JValue)) (k : String) :
    Except String String :=
  match mlookup md k with
  | some (.jstr s) => .ok s
  | _ => .error (k ++ " is missing or not a string")

/-- A Go type assertion metadata[k].(bool). -/
def getBoolMeta (md : List (String × JValue)) (k : String) :
    Except String Bool :=
  match mlookup md k with
  | some (.jbool b) => .ok b
  | _ => .error (k ++ " is missing or not a boolean")

/-- A Go type assertion with discarded ok flag, v, _ := metadata[k].(bool):
defaults to false when the key is absent or mistyped. -/
def getBoolMetaD (md : List (String × JValue)) (k : String) : Bool :=
  match mlookup md k with
  | some (.jbool b) => b
  | _ => false

/-- The JSONJob envelope persisted in the payload column (source: the
JSONJob struct of the provider file: id, priority, url, url_params,
max_retries, job_type, metadata, parent_id omitempty). -/
structure JSONJob where
  id : String
  priority : Int
  url : String
  urlParams : List (String × String)
  maxRetries : Int
  jobType : String
  metadata : List (String × JValue)
  parentID : Option String

/-- The scrapemate.Job fields the codecs persist (the scrapemate library
itself is an external collaborator; only this projection crosses the
envelope). -/
structure Job where
  id : String
  parentID : String
  url : String
  urlParams : List (String × String)
  maxRetries : Int
  priority : Int
deriving DecidableEq

/-- Modelled from the spec: the gmaps Entry record (gmaps/entry.go is not
under src/).  The spec lists the business columns title, category, address,
website, phone, emails plus the company-registry fields, and the fields the
rest of src/ reads from an Entry (WebSite, Emails, Title, Link and the
societe fields written by the BODACC and Pappers jobs). -/
structure Entry where
  link : String
  title : String
  category : String
  address : String
  webSite : String
  phone : String
  emails : List String
  societeDirigeants : List String
  societeSiren : String
  societeForme : String
  societeCreation : String
  societeCloture : String
  societeLink : String
  pappersURL : String
deriving DecidableEq

/-- The zero value of the Entry struct (var entry gmaps.Entry). -/
def zeroEntry : Entry := ⟨"", "", "", "", "", "", [], [], "", "", "", "", "", ""⟩

/-- Modelled from the spec and codec usage: the gmaps.GmapJob search
variant (its struct definition is not under src/; the fields are those the
codec encodes and decodes: MaxDepth, LangCode, ExtractEmail, ExtractBodacc,
OwnerID, OrganizationID over an embedded scrapemate.Job). -/
structure GmapJob where
  job : Job
  maxDepth : Int
  langCode : String
  extractEmail : Bool
  extractBodacc : Bool
  ownerID : String
  organizationID : String
deriving DecidableEq

/-- Modelled from the spec and codec usage: the gmaps.PlaceJob variant as
the codec persists it (UsageInResultststs, ExtractEmail, ExtractBodacc,
OwnerID, OrganizationID). -/
structure PlaceJob where
  job : Job
  usageInResultststs : Bool
  extractEmail : Bool
  extractBodacc : Bool
  ownerID : String
  organizationID : String
deriving DecidableEq

/-- Source: gmaps/emailjob.go EmailExtractJob (OwnerID, OrganizationID,
Entry over an embedded scrapemate.Job; the ExitMonitor handle is runtime
state, never persisted). -/
structure EmailExtractJob where
  job : Job
  ownerID : String
  organizationID : String
  entry : Entry
deriving DecidableEq

/-- Source: gmaps/companyjob.go CompanyJob. -/
structure CompanyJob where
  job : Job
  ownerID : String
  organizationID : String
  companyName : String
  address : String
  entry : Entry
deriving DecidableEq

/-- Source: gmaps/pappersjob.go PappersJob. -/
structure PappersJob where
  job : Job
  ownerID : String
  organizationID : String
  entry : Entry
deriving DecidableEq

/-- The sum of job variants the codec registry handles. -/
inductive IJob where
  | gmap (j : GmapJob)
  | place (j : PlaceJob)
  | email (j : EmailExtractJob)
  | company (j : CompanyJob)
  | pappers (j : PappersJob)
deriving DecidableEq

/-- Priority constant of scrapemate used by NewEmailJob; its numeric value
is irrelevant here because the decoder overwrites the priority. -/
def priorityHigh : Int := 0

/-- Source: gmaps.NewEmailJob: fresh uuid (placeholder here, always
overwritten by the decoder), parent id, method GET, url from the entry
website, zero retries, high priority. -/
def newEmailJob (parentID : String) (entry : Entry)
    (ownerID organizationID : String) : EmailExtractJob :=
  { job := { id := "uuid", parentID := parentID, url := entry.webSite,
             urlParams := [], maxRetries := 0, priority := priorityHigh },
    ownerID := ownerID, organizationID := organizationID, entry := entry }

/-- JSON marshalling of a Go string slice. -/
def strListToJ (xs : List String) : JValue := .jarr (xs.map .jstr)

/-- JSON marshalling of the Entry struct (the re-marshal step of the email,
bodacc and pappers codecs; keys modelled from the spec since entry.go is
not under src/). -/
def entryToJ (e : Entry) : JValue :=
  .jobj [("link", .jstr e.link), ("title", .jstr e.title),
    ("category", .jstr e.category), ("address", .jstr e.address),
    ("web_site", .jstr e.webSite), ("phone", .jstr e.phone),
    ("emails", strListToJ e.emails),
    ("societe_dirigeants", strListToJ e.societeDirigeants),
    ("societe_siren", .jstr e.societeSiren),
    ("societe_forme", .jstr e.societeForme),
    ("societe_creation", .jstr e.societeCreation),
    ("societe_cloture", .jstr e.societeCloture),
    ("societe_link", .jstr e.societeLink),
    ("pappers_url", .jstr e.pappersURL)]

/-- Go json.Unmarshal into a string field: absent or null leaves the zero
value, a string is taken, anything else is a type error. -/
def readStr (fs : List (String × JValue)) (k : String) :
    Except String String :=
  match mlookup fs k with
  | none => .ok ""
  | some .null => .ok ""
  | some (.jstr s) => .ok s
  | some _ => .error ("cannot unmarshal field " ++ k)

/-- Go json.Unmarshal of one array element into a string. -/
def asStr (v : JValue) : Except String String :=
  match v with
  | .jstr s => .ok s
  | _ => .error "cannot unmarshal array element"

/-- Go json.Unmarshal into a string-slice field. -/
def readStrList (fs : List (String × JValue)) (k : String) :
    Except String (List String) :=
  match mlookup fs k with
  | none => .ok []
  | some .null => .ok []
  | some (.jarr xs) => xs.mapM asStr
  | some _ => .error ("cannot unmarshal field " ++ k)

/-- Go json.Unmarshal into the Entry struct. -/
def entryFromJ (v : JValue) : Except String Entry :=
  match v with
  | .jobj fs => do
      let link ← readStr fs "link"
      let title ← readStr fs "title"
      let category ← readStr fs "category"
      let address ← readStr fs "address"
      let webSite ← readStr fs "web_site"
      let phone ← readStr fs "phone"
      let emails ← readStrList fs "emails"
      let societeDirigeants ← readStrList fs "societe_dirigeants"
      let societeSiren ← readStr fs "societe_siren"
      let societeForme ← readStr fs "societe_forme"
      let societeCreation ← readStr fs "societe_creation"
      let societeCloture ← readStr fs "societe_cloture"
      let societeLink ← readStr fs "societe_link"
      let pappersURL ← readStr fs "pappers_url"
      pure ⟨link, title, category, address, webSite, phone, emails,
        societeDirigeants, societeSiren, societeForme, societeCreation,
        societeCloture, societeLink, pappersURL⟩
  | _ => .error "failed to unmarshal entry"

/-- Go json.Unmarshal into an int field: absent or null leaves zero, an
integral number is taken, anything else is a type error. -/
def readInt (fs : List (String × JValue)) (k : String) : Except String Int :=
  match mlookup fs k with
  | none => .ok 0
  | some .null => .ok 0
  | some (.jnum q) => if q.den = 1 then .ok q.num
      else .error ("cannot unmarshal fractional number into field " ++ k)
  | some _ => .error ("cannot unmarshal field " ++ k)

/-- Go json.Unmarshal into a map-of-strings field (URLParams). -/
def readParams (fs : List (String × JValue)) (k : String) :
    Except String (List (String × String)) :=
  match mlookup fs k with
  | none => .ok []
  | some .null => .ok []
  | some (.jobj ps) =>
      ps.mapM (fun p => (asStr p.2).map (fun s => (p.1, s)))
  | some _ => .error ("cannot unmarshal field " ++ k)

/-- Go json.Unmarshal into a map-of-interface field (Metadata). -/
def readMeta (fs : List (String × JValue)) (k : String) :
    Except String (List (String × JValue)) :=
  match mlookup fs k with
  | none => .ok []
  | some .null => .ok []
  | some (.jobj ps) => .ok ps
  | some _ => .error ("cannot unmarshal field " ++ k)

/-- Go json.Unmarshal into a string-pointer field (ParentID). -/
def readOptStr (fs : List (String × JValue)) (k : String) :
    Except String (Option String) :=
  match mlookup fs k with
  | none => .ok none
  | some .null => .ok none
  | some (.jstr s) => .ok (some s)
  | some _ => .error ("cannot unmarshal field " ++ k)

/-- Source: json.Unmarshal(payload, &jsonJob) in DecodeJob: unmarshal of a
JSON document into the JSONJob struct. -/
def toJSONJob (v : JValue) : Except String JSONJob :=
  match v with
  | .jobj fs => do
      let id ← readStr fs "id"
      let priority ← readInt fs "priority"
      let url ← readStr fs "url"
      let urlParams ← readParams fs "url_params"
      let maxRetries ← readInt fs "max_retries"
      let jobType ← readStr fs "job_type"
      let metadata ← readMeta fs "metadata"
      let parentID ← readOptStr fs "parent_id"
      pure ⟨id, priority, url, urlParams, maxRetries, jobType, metadata, parentID⟩
  | _ => .error "failed to unmarshal job"

/-- JSON marshalling of a Go map-of-strings: a nil map marshals to null. -/
def paramsToJ (ps : List (String × String)) : JValue :=
  match ps with
  | [] => .null
  | _ => .jobj (ps.map (fun p => (p.1, .jstr p.2)))

/-- Source: json.Marshal(jsonJob): marshalling of the JSONJob struct, field
order as declared, parent_id omitted when nil. -/
def jsonJobToJ (jj : JSONJob) : JValue :=
  .jobj ([("id", .jstr jj.id), ("priority", .jnum (jj.priority : Rat)),
    ("url", .jstr jj.url), ("url_params", paramsToJ jj.urlParams),
    ("max_retries", .jnum (jj.maxRetries : Rat)),
    ("job_type", .jstr jj.jobType), ("metadata", .jobj jj.metadata)]
    ++ (match jj.parentID with
        | none => []
        | some p => [("parent_id", .jstr p)]))

/-- Source: GmapJobCodec.Encode. -/
def encodeGmap (j : GmapJob) : JSONJob :=
  { id := j.job.id, priority := j.job.priority, url := j.job.url,
    urlParams := j.job.urlParams, maxRetries := j.job.maxRetries,
    jobType := "search",
    metadata := [("max_depth", .jnum (j.maxDepth : Rat)),
      ("lang_code", .jstr j.langCode),
      ("extract_email", .jbool j.extractEmail),
      ("extract_bodacc", .jbool j.extractBodacc),
      ("owner_id", .jstr j.ownerID),
      ("organization_id", .jstr j.organizationID)],
    parentID := if j.job.parentID = "" then none else some j.job.parentID }

/-- Source: GmapJobCodec.Decode. -/
def decodeGmap (jj : JSONJob) : Except String GmapJob := do
  let maxDepth ← getIntFromMetadata jj.metadata "max_depth"
  let langCode ← getStrMeta jj.metadata "lang_code"
  let extractEmail ← getBoolMeta jj.metadata "extract_email"
  let extractBodacc := getBoolMetaD jj.metadata "extract_bodacc"
  let ownerID ← getStrMeta jj.metadata "owner_id"
  let organizationID ← getStrMeta jj.metadata "organization_id"
  let parentID := jj.parentID.getD ""
  pure { job := { id := jj.id, parentID := parentID, url := jj.url,
                  urlParams := jj.urlParams, maxRetries := jj.maxRetries,
                  priority := jj.priority },
         maxDepth := maxDepth, langCode := langCode,
         extractEmail := extractEmail, extractBodacc := extractBodacc,
         ownerID := ownerID, organizationID := organizationID }

/-- Source: PlaceJobCodec.Encode. -/
def encodePlace (j : PlaceJob) : JSONJob :=
  { id := j.job.id, priority := j.job.priority, url := j.job.url,
    urlParams := j.job.urlParams, maxRetries := j.job.maxRetries,
    jobType := "place",
    metadata := [("usage_in_results", .jbool j.usageInResultststs),
      ("extract_email", .jbool j.extractEmail),
      ("extract_bodacc", .jbool j.extractBodacc),
      ("owner_id", .jstr j.ownerID),
      ("organization_id", .jstr j.organizationID)],
    parentID := if j.job.parentID = "" then none else some j.job.parentID }

/-- Source: PlaceJobCodec.Decode. -/
def decodePlace (jj : JSONJob) : Except String PlaceJob := do
  let usageInResults ← getBoolMeta jj.metadata "usage_in_results"
  let extractEmail ← getBoolMeta jj.metadata "extract_email"
  let extractBodacc := getBoolMetaD jj.metadata "extract_bodacc"
  let ownerID ← getStrMeta jj.metadata "owner_id"
  let organizationID ← getStrMeta jj.metadata "organization_id"
  let parentID := jj.parentID.getD ""
  pure { job := { id := jj.id, parentID := parentID, url := jj.url,
                  urlParams := jj.urlParams, maxRetries := jj.maxRetries,
                  priority := jj.priority },
         usageInResultststs := usageInResults, extractEmail := extractEmail,
         extractBodacc := extractBodacc, ownerID := ownerID,
         organizationID := organizationID }

/-- Source: EmailJobCodec.Encode. -/
def encodeEmail (j : EmailExtractJob) : JSONJob :=
  { id := j.job.id, priority := j.job.priority, url := j.job.url,
    urlParams := j.job.urlParams, maxRetries := j.job.maxRetries,
    jobType := "email",
    metadata := [("entry", entryToJ j.entry),
      ("parent_id", .jstr j.job.parentID),
      ("owner_id", .jstr j.ownerID),
      ("organization_id", .jstr j.organizationID)],
    parentID := if j.job.parentID = "" then none else some j.job.parentID }

/-- Source: EmailJobCodec.Decode: asserts parent_id and the tenant keys as
strings, asserts entry as an object, re-marshals it and unmarshals it into
an Entry, builds the job via NewEmailJob and then overwrites the envelope
fields. -/
def decodeEmail (jj : JSONJob) : Except String EmailExtractJob := do
  let parentIDMeta ← getStrMeta jj.metadata "parent_id"
  let entryObj ← (match mlookup jj.metadata "entry" with
    | some (.jobj fs) => Except.ok (JValue.jobj fs)
    | _ => Except.error "entry is missing or not an object")
  let entry ← entryFromJ entryObj
  let ownerID ← getStrMeta jj.metadata "owner_id"
  let organizationID ← getStrMeta jj.metadata "organization_id"
  let parentID := jj.parentID.getD ""
  let base := newEmailJob parentIDMeta entry ownerID organizationID
  pure { base with
         job := { id := jj.id, parentID := parentID, url := jj.url,
                  urlParams := jj.urlParams, maxRetries := jj.maxRetries,
                  priority := jj.priority },
         ownerID := ownerID, organizationID := organizationID }

/-- Source: CompanyJobCodec.Encode. -/
def encodeCompany (j : CompanyJob) : JSONJob :=
  { id := j.job.id, priority := j.job.priority, url := j.job.url,
    urlParams := j.job.urlParams, maxRetries := j.job.maxRetries,
    jobType := "bodacc",
    metadata := [("company_name", .jstr j.companyName),
      ("address", .jstr j.address),
      ("owner_id", .jstr j.ownerID),
      ("organization_id", .jstr j.organizationID),
      ("entry", entryToJ j.entry)],
    parentID := if j.job.parentID = "" then none else some j.job.parentID }

/-- Source: CompanyJobCodec.Decode: the entry key is optional; when present
as an object it must unmarshal, when absent or mistyped the zero Entry is
used. -/
def decodeCompany (jj : JSONJob) : Except String CompanyJob := do
  let companyName ← getStrMeta jj.metadata "company_name"
  let address ← getStrMeta jj.metadata "address"
  let ownerID ← getStrMeta jj.metadata "owner_id"
  let organizationID ← getStrMeta jj.metadata "organization_id"
  let entry ← (match mlookup jj.metadata "entry" with
    | some (.jobj fs) => entryFromJ (.jobj fs)
    | _ => Except.ok zeroEntry)
  let parentID := jj.parentID.getD ""
  pure { job := { id := jj.id, parentID := parentID, url := jj.url,
                  urlParams := jj.urlParams, maxRetries := jj.maxRetries,
                  priority := jj.priority },
         ownerID := ownerID, organizationID := organizationID,
         companyName := companyName, address := address, entry := entry }

/-- Source: PappersJobCodec.Encode. -/
def encodePappers (j : PappersJob) : JSONJob :=
  { id := j.job.id, priority := j.job.priority, url := j.job.url,
    urlParams := j.job.urlParams, maxRetries := j.job.maxRetries,
    jobType := "pappers",
    metadata := [("owner_id", .jstr j.ownerID),
      ("organization_id", .jstr j.organizationID),
      ("entry", entryToJ j.entry)],
    parentID := if j.job.parentID = "" then none else some j.job.parentID }

/-- Source: PappersJobCodec.Decode. -/
def decodePappers (jj : JSONJob) : Except String PappersJob := do
  let ownerID ← getStrMeta jj.metadata "owner_id"
  let organizationID ← getStrMeta jj.metadata "organization_id"
  let entry ← (match mlookup jj.metadata "entry" with
    | some (.jobj fs) => entryFromJ (.jobj fs)
    | _ => Except.ok zeroEntry)
  let parentID := jj.parentID.getD ""
  pure { job := { id := jj.id, parentID := parentID, url := jj.url,
                  urlParams := jj.urlParams, maxRetries := jj.maxRetries,
                  priority := jj.priority },
         ownerID := ownerID, organizationID := organizationID,
         entry := entry }

/-- A registered codec: its type tag, encoder and decoder (source: the
JobCodec interface). -/
structure JobCodec where
  jobType : String
  encode : IJob → Except String JSONJob
  decode : JSONJob → Except String IJob

/-- Source: GmapJobCodec. -/
def gmapJobCodec : JobCodec :=
  { jobType := "search",
    encode := fun j => match j with
      | .gmap g => .ok (encodeGmap g)
      | _ => .error "expected GmapJob",
    decode := fun jj => (decodeGmap jj).map .gmap }

/-- Source: PlaceJobCodec. -/
def placeJobCodec : JobCodec :=
  { jobType := "place",
    encode := fun j => match j with
      | .place g => .ok (encodePlace g)
      | _ => .error "expected PlaceJob",
    decode := fun jj => (decodePlace jj).map .place }

/-- Source: EmailJobCodec. -/
def emailJobCodec : JobCodec :=
  { jobType := "email",
    encode := fun j => match j with
      | .email g => .ok (encodeEmail g)
      | _ => .error "expected EmailExtractJob",
    decode := fun jj => (decodeEmail jj).map .email }

/-- Source: CompanyJobCodec. -/
def companyJobCodec : JobCodec :=
  { jobType := "bodacc",
    encode := fun j => match j with
      | .company g => .ok (encodeCompany g)
      | _ => .error "expected CompanyJob",
    decode := fun jj => (decodeCompany jj).map .company }

/-- Source: PappersJobCodec. -/
def pappersJobCodec : JobCodec :=
  { jobType := "pappers",
    encode := fun j => match j with
      | .pappers g => .ok (encodePappers g)
      | _ => .error "expected PappersJob",
    decode := fun jj => (decodePappers jj).map .pappers }

/-- Source: NewCodecRegistry registers exactly these five codecs. -/
def codecRegistry : List JobCodec :=
  [gmapJobCodec, placeJobCodec, emailJobCodec, companyJobCodec, pappersJobCodec]

/-- Source: CodecRegistry.GetCodec. -/
def getCodec (t : String) : Option JobCodec :=
  codecRegistry.find? (fun c => c.jobType = t)

/-- Source: the payload_type switch of CodecRegistry.EncodeJob. -/
def jobTypeTag : IJob → String
  | .gmap _ => "search"
  | .place _ => "place"
  | .email _ => "email"
  | .company _ => "bodacc"
  | .pappers _ => "pappers"

/-- Source: CodecRegistry.EncodeJob: map the variant to its tag, look the
codec up and encode. -/
def encodeJobR (j : IJob) : Except String (JSONJob × String) :=
  let tag := jobTypeTag j
  match getCodec tag with
  | none => .error ("no codec registered for job type: " ++ tag)
  | some c => (c.encode j).map (fun jj => (jj, tag))

/-- The payload bytes handed to DecodeJob, abstracted to their parsed
form: either bytes whose JSON parse is the document directly, or bytes
that are a JSON string whose content parses to the document (the
double-encoded case the decoder unwraps first). -/
inductive RawPayload where
  | direct (v : JValue)
  | strWrapped (v : JValue)

/-- Source: the string-unwrap preamble of CodecRegistry.DecodeJob:
json.Unmarshal into a string succeeds exactly on the strWrapped form, and
the decoder then continues with the unwrapped content. -/
def unwrapPayload : RawPayload → JValue
  | .direct v => v
  | .strWrapped v => v

/-- Source: CodecRegistry.DecodeJob: unwrap, unmarshal the envelope, look
up the codec by payload type and decode. -/
def decodeJobR (payloadType : String) (p : RawPayload) : Except String IJob := do
  let jj ← toJSONJob (unwrapPayload p)
  match getCodec payloadType with
  | none => Except.error ("invalid payload type: " ++ payloadType)
  | some c => c.decode jj

/-- Whether an Except carries a value. -/
def isOkE {α : Type} (x : Except String α) : Bool :=
  match x with
  | .ok _ => true
  | .error _ => false

/-- The payload types with a registered codec, per the claim. -/
def registeredTypes : List String := ["search", "place", "email", "bodacc", "pappers"]

/-- The metadata key k is present with a JSON string value. -/
def hasStrKey (md : List (String × JValue)) (k : String) : Bool :=
  match mlookup md k with
  | some (.jstr _) => true
  | _ => false

/-- The metadata key k is present with a JSON boolean value. -/
def hasBoolKey (md : List (String × JValue)) (k : String) : Bool :=
  match mlookup md k with
  | some (.jbool _) => true
  | _ => false

/-- The metadata key k is present with a JSON number value. -/
def hasNumKey (md : List (String × JValue)) (k : String) : Bool :=
  match mlookup md k with
  | some (.jnum _) => true
  | _ => false

/-- The entry metadata key is present, is an object and unmarshals into an
Entry (the email codec requires this). -/
def entryKeyStrict (md : List (String × JValue)) : Bool :=
  match mlookup md "entry" with
  | some (.jobj fs) => isOkE (entryFromJ (.jobj fs))
  | _ => false

/-- The entry metadata key, when present as an object, unmarshals into an
Entry; an absent or non-object entry is tolerated (the bodacc and pappers
codecs fall back to the zero Entry). -/
def entryKeyLenient (md : List (String × JValue)) : Bool :=
  match mlookup md "entry" with
  | some (.jobj fs) => isOkE (entryFromJ (.jobj fs))
  | _ => true

/-- The required-metadata table of the claim: for each registered variant,
which metadata keys must be present with which JSON types for decoding to
succeed. -/
def requiredMetaOK (t : String) (md : List (String × JValue)) : Bool :=
  if t = "search" then
    hasNumKey md "max_depth" && hasStrKey md "lang_code"
      && hasBoolKey md "extract_email" && hasStrKey md "owner_id"
      && hasStrKey md "organization_id"
  else if t = "place" then
    hasBoolKey md "usage_in_results" && hasBoolKey md "extract_email"
      && hasStrKey md "owner_id" && hasStrKey md "organization_id"
  else if t = "email" then
    hasStrKey md "parent_id" && entryKeyStrict md
      && hasStrKey md "owner_id" && hasStrKey md "organization_id"
  else if t = "bodacc" then
    hasStrKey md "company_name" && hasStrKey md "address"
      && hasStrKey md "owner_id" && hasStrKey md "organization_id"
      && entryKeyLenient md
  else if t = "pappers" then
    hasStrKey md "owner_id" && hasStrKey md "organization_id"
      && entryKeyLenient md
  else false

end Codec


namespace Sched

/-- Job status values (source: the status constants of the provider file:
new, queued, processing, done, failed). -/
inductive Status where
  | new
  | queued
  | processing
  | done
  | failed
deriving DecidableEq, Repr

/-- The slice of the gmaps_jobs table the status machine reads and writes:
status and the three child counters per job id, plus the ordered list of
job ids for which a completion notification has been queued
(CallJobCompletionAPIAsync). -/
structure St where
  status : Nat → Status
  childCount : Nat → Nat
  completed : Nat → Nat
  failed : Nat → Nat
  notes : List Nat

/-- UPDATE gmaps_jobs SET status = s WHERE id = j. -/
def setStatus (j : Nat) (s : Status) (st : St) : St :=
  { st with status := fun k => if k = j then s else st.status k }

/-- UPDATE gmaps_jobs SET child_jobs_completed = child_jobs_completed + 1
WHERE id = j. -/
def incCompleted (j : Nat) (st : St) : St :=
  { st with completed := fun k => if k = j then st.completed k + 1 else st.completed k }

/-- UPDATE gmaps_jobs SET child_jobs_failed = child_jobs_failed + 1
WHERE id = j. -/
def incFailed (j : Nat) (st : St) : St :=
  { st with failed := fun k => if k = j then st.failed k + 1 else st.failed k }

/-- UPDATE gmaps_jobs SET child_jobs_count = child_jobs_count + n
WHERE id = j. -/
def addCount (j : Nat) (n : Nat) (st : St) : St :=
  { st with childCount := fun k => if k = j then st.childCount k + n else st.childCount k }

/-- Queue the completion notification for job j. -/
def emit (j : Nat) (st : St) : St := { st with notes := st.notes ++ [j] }

/-- Source: StatusManager.checkAndMarkParentDone (postgres/jobstatus.go).
The repeated SELECT parent_id walk of the source is passed in as the
precomputed ancestor chain of j, nearest parent first; an empty chain is a
NULL parent_id (the function returns at once), and the chain of the head p
is its tail, so the recursion stops at the root exactly when rest is empty.
The body mirrors the source: increment the parent's child_jobs_completed
exactly when the triggering child's status is done, load the three
counters, and when completed + failed reaches a positive child_jobs_count
set the parent to done, queueing the completion notification and stopping
if the parent is the root, else recursing. -/
def checkAndMarkParentDone (j : Nat) (chain : List Nat) (st : St) : St :=
  match chain with
  | [] => st
  | p :: rest =>
      let st1 := if st.status j = Status.done then incCompleted p st else st
      if st1.childCount p ≤ st1.completed p + st1.failed p ∧ 0 < st1.childCount p then
        let st2 := setStatus p Status.done st1
        match rest with
        | [] => emit p st2
        | _ :: _ => checkAndMarkParentDone p rest st2
      else st1

/-- Source: StatusManager.MarkDone (postgres/jobstatus.go).  With zero
children created, set the status to done, queue the completion
notification when the job is a root (empty chain) whose child_jobs_count
is zero, then run the parent rollup; with children created, set the status
to processing only. -/
def markDone (j : Nat) (chain : List Nat) (childJobsCreated : Nat) (st : St) : St :=
  if childJobsCreated = 0 then
    let st1 := setStatus j Status.done st
    let st2 := if chain = [] ∧ st1.childCount j = 0 then emit j st1 else st1
    checkAndMarkParentDone j chain st2
  else
    setStatus j Status.processing st

/-- Source: StatusManager.MarkFailed (postgres/jobstatus.go): set the
status to failed, increment the parent's child_jobs_failed when a parent
exists (incrementParentFailedCounter), then run the parent rollup. -/
def markFailed (j : Nat) (chain : List Nat) (st : St) : St :=
  let st1 := setStatus j Status.failed st
  let st2 := match chain with
    | [] => st1
    | p :: _ => incFailed p st1
  checkAndMarkParentDone j chain st2

/-- Source: provider.checkAndMarkParentDone (postgres/provider.go, the
superseded variant).  The walk over repeated SELECT parent_id is passed in
as the precomputed ancestor chain, nearest parent first.  Unlike the
StatusManager variant, this one increments the parent's
child_jobs_completed unconditionally (the triggering child's status is
never consulted, and there is no job argument to consult it on), and flips
the parent to done when child_jobs_completed alone reaches a positive
child_jobs_count (child_jobs_failed is ignored), then recurses; no
completion notification is queued here. -/
def legacyCheckAndMarkParentDone (chain : List Nat) (st : St) : St :=
  match chain with
  | [] => st
  | p :: rest =>
      let st1 := incCompleted p st
      if st1.childCount p ≤ st1.completed p ∧ 0 < st1.childCount p then
        legacyCheckAndMarkParentDone rest (setStatus p Status.done st1)
      else st1

mutual
/-- A finite job tree: id, fail label (true for a job whose Process
returns an error; such a job never creates children) and children. -/
inductive JTree : Type where
  | node (tid : Nat) (fl : Bool) (children : JForest)
deriving DecidableEq
/-- Children of a job tree node. -/
inductive JForest : Type where
  | fnil
  | fcons (hd : JTree) (tl : JForest)
deriving DecidableEq
end

def JTree.tid : JTree → Nat
  | .node i _ _ => i

def JTree.fl : JTree → Bool
  | .node _ f _ => f

def JTree.children : JTree → JForest
  | .node _ _ cs => cs

/-- The children of a forest as a list. -/
def toList : JForest → List JTree
  | .fnil => []
  | .fcons c cs => c :: toList cs

/-- Number of children. -/
def flen (cs : JForest) : Nat := (toList cs).length

mutual
/-- All job ids of a tree, root first. -/
def idsT : JTree → List Nat
  | .node i _ cs => i :: idsF cs
/-- All job ids of a forest. -/
def idsF : JForest → List Nat
  | .fnil => []
  | .fcons c cs => idsT c ++ idsF cs
end

mutual
/-- All subtrees of a tree (the tree itself included). -/
def subT : JTree → List JTree
  | .node i f cs => .node i f cs :: subF cs
/-- All subtrees of the trees of a forest. -/
def subF : JForest → List JTree
  | .fnil => []
  | .fcons c cs => subT c ++ subF cs
end

mutual
/-- Whether every job of the tree has been processed (is in P). -/
def settledT (P : List Nat) : JTree → Bool
  | .node i _ cs => decide (i ∈ P) && settledF P cs
/-- Whether every job of the forest has been processed. -/
def settledF (P : List Nat) : JForest → Bool
  | .fnil => true
  | .fcons c cs => settledT P c && settledF P cs
end

mutual
/-- The ancestor chain of job e inside the tree, nearest parent first
(the walk the source performs via repeated SELECT parent_id); none when e
is not in the tree. -/
def chT (e : Nat) : JTree → Option (List Nat)
  | .node i _ cs =>
      if e = i then some [] else (chF e cs).map (fun l => l ++ [i])
/-- The ancestor chain of job e inside a forest, relative to the forest. -/
def chF (e : Nat) : JForest → Option (List Nat)
  | .fnil => none
  | .fcons c cs =>
      match chT e c with
      | some l => some l
      | none => chF e cs
end

mutual
/-- The subtree rooted at the job with id e. -/
def findT (e : Nat) : JTree → Option JTree
  | .node i f cs => if e = i then some (.node i f cs) else findF e cs
/-- The subtree rooted at the job with id e within a forest. -/
def findF (e : Nat) : JForest → Option JTree
  | .fnil => none
  | .fcons c cs =>
      match findT e c with
      | some n => some n
      | none => findF e cs
end

/-- Number of children whose whole subtree is processed and that end done
(a done leaf or a completed internal node). -/
def countDone (P : List Nat) (cs : JForest) : Nat :=
  ((toList cs).filter (fun c => settledT P c && !c.fl)).length

/-- Number of children whose whole subtree is processed and that failed. -/
def countFail (P : List Nat) (cs : JForest) : Nat :=
  ((toList cs).filter (fun c => settledT P c && c.fl)).length

/-- The ancestor chain used by the scheduler events. -/
def chainOf (t : JTree) (e : Nat) : List Nat := (chT e t).getD []

/-- One scheduler event: job e is processed.  A leaf with the fail label
runs MarkFailed; a leaf without it runs MarkDone with zero children; an
internal node runs pushChildJobs (child_jobs_count increased by the batch
size; the inserted child rows are in status new with zero counters, which
is the initial state already assigned to every id) followed by MarkDone
with a positive childJobsCreated. -/
def step (t : JTree) (st : St) (e : Nat) : St :=
  match findT e t with
  | none => st
  | some n =>
      if flen n.children = 0 then
        if n.fl then markFailed e (chainOf t e) st
        else markDone e (chainOf t e) 0 st
      else
        markDone e (chainOf t e) (flen n.children)
          (addCount e (flen n.children) st)

/-- Run a schedule of events. -/
def run (t : JTree) (es : List Nat) (st : St) : St := es.foldl (step t) st

/-- The initial store: every row new with zero counters, nothing queued. -/
def stInit : St := ⟨fun _ => Status.new, fun _ => 0, fun _ => 0, fun _ => 0, []⟩

/-- A valid schedule continuation after the jobs of P have been processed:
each event is a job of the tree, not processed twice, and its parent (the
head of its ancestor chain) was processed before it (children exist only
after their parent's processing inserted them). -/
def validB (t : JTree) (P : List Nat) : List Nat → Bool
  | [] => true
  | e :: es =>
      decide (e ∈ idsT t) && decide (e ∉ P)
        && (match chT e t with
            | some (p :: _) => decide (p ∈ P)
            | _ => true)
        && validB t (e :: P) es

/-- A well-formed job tree: distinct ids, and failed jobs are leaves (a
job whose Process errors never creates children). -/
def wfT (t : JTree) : Prop :=
  (idsT t).Nodup ∧ ∀ s ∈ subT t, s.fl = true → flen s.children = 0

/-- The status a job must show once the jobs of P are processed: new when
unprocessed; a processed leaf shows done or failed per its label; a
processed internal node shows done once its whole subtree is processed and
processing before that. -/
def statusOf (n : JTree) (P : List Nat) : Status :=
  if n.tid ∈ P then
    if flen n.children = 0 then (if n.fl then Status.failed else Status.done)
    else (if settledF P n.children then Status.done else Status.processing)
  else Status.new

/-- The store invariant after the jobs of P are processed: every job row
carries its prescribed status, child_jobs_count equals the number of
children once the job spawned them, the completed and failed counters
count exactly the settled children of each kind, and the completion
notification has been queued exactly when the whole tree is settled and
the root did not fail, exactly once, for the root only. -/
def Inv (t : JTree) (P : List Nat) (st : St) : Prop :=
  (∀ n ∈ subT t,
    st.status n.tid = statusOf n P
    ∧ st.childCount n.tid = (if n.tid ∈ P then flen n.children else 0)
    ∧ st.completed n.tid = countDone P n.children
    ∧ st.failed n.tid = countFail P n.children)
  ∧ st.notes = (if settledT P t && !t.fl then [t.tid] else [])

/-- P is closed under parents inside the tree. -/
def ParentClosed (t : JTree) (P : List Nat) : Prop :=
  ∀ j ∈ P, ∀ p rest, chT j t = some (p :: rest) → p ∈ P

/-- The ancestor chain paired with its nodes: ChainOK t n chain states
that chain is the list of ancestor ids of node n in t, nearest first,
each consecutive pair linked by the child relation, ending at the root. -/
def ChainOK (t : JTree) : JTree → List Nat → Prop
  | n, [] => n = t
  | n, p :: rest =>
      ∃ pn, pn ∈ subT t ∧ pn.tid = p ∧ n ∈ toList pn.children ∧ ChainOK t pn rest

end Sched

/-! ## Theorems -/

theorem nextDelay_iterate (k : Nat) :
    Backoff.nextDelay^[k] Backoff.baseDelay = min (2 ^ k) Backoff.maxDelay := by
  induction k with
  | zero => simp [Backoff.baseDelay, Backoff.maxDelay]
  | succ k ih =>
      rw [Function.iterate_succ_apply', ih]
      unfold Backoff.nextDelay Backoff.maxDelay
      rcases le_or_lt (2 ^ k) 60 with h | h
      · rw [min_eq_left h, pow_succ]
        by_cases h2 : 2 ^ k * 2 > 60
        · simp only [if_pos h2]
          omega
        · simp only [if_neg h2]
          omega
      · rw [min_eq_right h.le, pow_succ]
        have h2 : 2 ^ k * 2 > 60 := by omega
        simp only [if_pos (by omega : (60 : Nat) * 2 > 60)]
        omega

/-- C7 (amended): in the codec-registry provider's lease loop, every empty
poll sleeps the current delay and the delay then doubles, starting from the
1-second base delay and capped at 1 minute (after k consecutive empty polls
the delay is min (2 to the k) 60 and never exceeds 60 s), and a non-empty
poll resets the delay to the base delay; in the legacy lease loop of
postgres/provider.go the doubling and the cap are identical but a non-empty
poll leaves the delay unchanged instead of resetting it. -/
theorem fetch_backoff_doubling_cap_reset :
    (∀ k, Backoff.nextDelay^[k] Backoff.baseDelay = min (2 ^ k) Backoff.maxDelay)
    ∧ (∀ k, Backoff.nextDelay^[k] Backoff.baseDelay ≤ Backoff.maxDelay)
    ∧ (∀ d, Backoff.fetchStep d false = ⟨Backoff.nextDelay d, some d⟩)
    ∧ (∀ d, Backoff.legacyFetchStep d false = ⟨Backoff.nextDelay d, some d⟩)
    ∧ (∀ d, Backoff.fetchStep d true = ⟨Backoff.baseDelay, none⟩)
    ∧ (∀ d, Backoff.legacyFetchStep d true = ⟨d, none⟩) := by
  refine ⟨nextDelay_iterate, fun k => ?_, fun d => rfl, fun d => rfl,
    fun d => rfl, fun d => rfl⟩
  rw [nextDelay_iterate]
  exact min_le_right _ _

/-- C7: counterexample to the claim as stated.  In the lease loop of
postgres/provider.go (one of the two lease loops the claim cites), a
non-empty poll arriving while the current delay is 2 s leaves the delay at
2 s; it is not reset to the 1-second base delay. -/
theorem legacy_nonempty_poll_keeps_delay :
    Backoff.legacyFetchStep 2 true = ⟨2, none⟩
    ∧ Backoff.legacyFetchStep 2 true ≠ ⟨Backoff.baseDelay, none⟩ := by
  decide

/-- C9: the code computes the default concurrency as min(NumCPU/2, 1), not
max(NumCPU/2, 1) as the claim (and the flag's own help text, "default: half
of CPU cores") states: on an 8-CPU machine the default is 1, not 4, and on
a 1-CPU machine the default is 0, which then fails the code's own
validation (ParseConfig panics on concurrency < 1); the remaining
validation guards (zoom outside 0..21, missing DSN, non-positive
concurrency) do panic as claimed. -/
theorem default_concurrency_min_not_max :
    Runner.defaultConcurrency 8 = 1
    ∧ Nat.max (8 / 2) 1 = 4
    ∧ Runner.defaultConcurrency 8 ≠ Nat.max (8 / 2) 1
    ∧ Runner.defaultConcurrency 1 = 0
    ∧ Runner.configPanics ⟨0, 10, 15, "postgres://x"⟩ = true
    ∧ Runner.configPanics ⟨4, 10, 22, "postgres://x"⟩ = true
    ∧ Runner.configPanics ⟨4, 10, -1, "postgres://x"⟩ = true
    ∧ Runner.configPanics ⟨4, 10, 15, ""⟩ = true
    ∧ Runner.configPanics ⟨4, 10, 15, "postgres://x"⟩ = false := by
  decide

theorem foldl_push_accounting (cs : List String) :
    ∀ st : Push.PushSt,
      (cs.foldl Push.pushJobWithParent st).count = st.count
      ∧ (cs.foldl Push.pushJobWithParent st).completed = st.completed
      ∧ (cs.foldl Push.pushJobWithParent st).failed
          = st.failed + Push.numConflicts st.existing cs := by
  induction cs with
  | nil => intro st; simp [Push.numConflicts]
  | cons c cs ih =>
      intro st
      simp only [List.foldl_cons]
      by_cases h : c ∈ st.existing
      · have hrec := ih { st with failed := st.failed + 1 }
        simp only [Push.pushJobWithParent, if_pos h]
        refine ⟨hrec.1, hrec.2.1, ?_⟩
        rw [hrec.2.2]
        simp only [Push.numConflicts, if_pos h]
        omega
      · have hrec := ih { st with existing := c :: st.existing }
        simp only [Push.pushJobWithParent, if_neg h]
        refine ⟨hrec.1, hrec.2.1, ?_⟩
        rw [hrec.2.2]
        simp only [Push.numConflicts, if_neg h]

theorem conflicts_add_inserted (cs : List String) :
    ∀ existing, Push.numConflicts existing cs + Push.numInserted existing cs
      = cs.length := by
  induction cs with
  | nil => intro ex; simp [Push.numConflicts, Push.numInserted]
  | cons c cs ih =>
      intro ex
      simp only [Push.numConflicts, Push.numInserted, List.length_cons]
      by_cases h : c ∈ ex
      · simp only [if_pos h]
        have := ih ex
        omega
      · simp only [if_neg h]
        have := ih (c :: ex)
        omega

/-- C10: inserting a batch of child jobs adds the full batch size to the
parent's child_jobs_count, increments child_jobs_failed once per child
whose id already exists (whose INSERT ... ON CONFLICT DO NOTHING affects
zero rows), leaves child_jobs_completed unchanged, and conflicts plus
actual insertions account for the whole batch; consequently the gap
between child_jobs_count and child_jobs_completed + child_jobs_failed
grows by exactly the number of children actually inserted, so the
completion budget remains attainable once each inserted child terminates. -/
theorem push_child_jobs_conflict_accounting (st : Push.PushSt)
    (cs : List String) :
    (Push.pushChildJobs st cs).count = st.count + cs.length
    ∧ (Push.pushChildJobs st cs).completed = st.completed
    ∧ (Push.pushChildJobs st cs).failed
        = st.failed + Push.numConflicts st.existing cs
    ∧ Push.numConflicts st.existing cs + Push.numInserted st.existing cs
        = cs.length
    ∧ (Push.pushChildJobs st cs).count
        + ((Push.pushChildJobs st cs).completed + (Push.pushChildJobs st cs).failed)
      = (st.count + (st.completed + st.failed)) + Push.numInserted st.existing cs
        + Push.numConflicts st.existing cs + Push.numConflicts st.existing cs := by
  unfold Push.pushChildJobs
  by_cases hnil : cs = []
  · subst hnil
    simp [Push.numConflicts, Push.numInserted]
  · simp only [if_neg hnil]
    have h := foldl_push_accounting cs { st with count := st.count + cs.length }
    have hc := conflicts_add_inserted cs st.existing
    dsimp only at h
    refine ⟨h.1, h.2.1, h.2.2, hc, ?_⟩
    rw [h.1, h.2.1, h.2.2]
    omega

theorem checkDuplicate_false_of_fresh (table : List Writer.DbEntry)
    (l u o : String) (hl : l ≠ "")
    (hfresh : ∀ r ∈ table, ¬(r.link = l ∧ (r.userID = u ∨ r.organizationID = o))) :
    Writer.checkDuplicateURL table l u o = false := by
  unfold Writer.checkDuplicateURL
  rw [if_neg hl]
  by_cases hu : u = "" <;> by_cases ho : o = ""
  · rw [if_neg (by simp [hu]), if_neg (by simp [hu]), if_neg (by simp [ho])]
  · rw [if_neg (by simp [hu]), if_neg (by simp [hu]), if_pos (by simp [ho]),
      List.any_eq_false]
    intro r hr
    rw [decide_eq_true_eq]
    exact fun h => hfresh r hr ⟨h.1, Or.inr h.2⟩
  · rw [if_neg (by simp [ho]), if_pos (by simp [hu]), List.any_eq_false]
    intro r hr
    rw [decide_eq_true_eq]
    exact fun h => hfresh r hr ⟨h.1, Or.inl h.2⟩
  · rw [if_pos ⟨hu, ho⟩, List.any_eq_false]
    intro r hr
    rw [decide_eq_true_eq]
    exact fun h => hfresh r hr ⟨h.1, h.2⟩

theorem checkDuplicate_true_of_match (table : List Writer.DbEntry)
    (r : Writer.DbEntry) (hr : r ∈ table) (l u o : String) (hl : l ≠ "")
    (hten : ¬(u = "" ∧ o = "")) (hlink : r.link = l) (huser : r.userID = u)
    (horg : r.organizationID = o) :
    Writer.checkDuplicateURL table l u o = true := by
  unfold Writer.checkDuplicateURL
  rw [if_neg hl]
  by_cases hu : u = "" <;> by_cases ho : o = ""
  · exact absurd ⟨hu, ho⟩ hten
  · rw [if_neg (by simp [hu]), if_neg (by simp [hu]), if_pos (by simp [ho]),
      List.any_eq_true]
    exact ⟨r, hr, by rw [decide_eq_true_eq]; exact ⟨hlink, horg⟩⟩
  · rw [if_neg (by simp [ho]), if_pos (by simp [hu]), List.any_eq_true]
    exact ⟨r, hr, by rw [decide_eq_true_eq]; exact ⟨hlink, huser⟩⟩
  · rw [if_pos ⟨hu, ho⟩, List.any_eq_true]
    exact ⟨r, hr, by rw [decide_eq_true_eq]; exact ⟨hlink, Or.inl huser⟩⟩

/-- C6 (amended): two records with the same nonempty link and the same
tenant (with at least one of user id and organization id nonempty),
written in two successive successful batches against a table holding no
prior row for that link and tenant scope, leave exactly one row for that
link and tenant: the duplicate-URL check runs before buffering and
suppresses the repeat record before INSERT.  (The check is disabled for an
empty link and for an empty tenant pair, in which case duplicates are
inserted; see the counterexample.) -/
theorem dedup_two_batches_single_row (table : List Writer.DbEntry)
    (r1 r2 : Writer.DbEntry) (hlink : r1.link ≠ "")
    (hten : ¬(r1.userID = "" ∧ r1.organizationID = ""))
    (hsame : r2.link = r1.link ∧ r2.userID = r1.userID
      ∧ r2.organizationID = r1.organizationID)
    (hfresh : ∀ r ∈ table,
      ¬(r.link = r1.link ∧ (r.userID = r1.userID ∨ r.organizationID = r1.organizationID))) :
    Writer.matchCount
      (Writer.flushBatch (Writer.processRecord
        (Writer.flushBatch (Writer.processRecord ⟨table, []⟩ r1)) r2)).results
      r1.link r1.userID r1.organizationID = 1 := by
  have h1 : Writer.processRecord ⟨table, []⟩ r1 = ⟨table, [r1]⟩ := by
    unfold Writer.processRecord
    rw [checkDuplicate_false_of_fresh table _ _ _ hlink hfresh]
    simp
  rw [h1]
  have h2 : Writer.flushBatch ⟨table, [r1]⟩ = ⟨table ++ [r1], []⟩ := rfl
  rw [h2]
  have h3 : Writer.processRecord ⟨table ++ [r1], []⟩ r2 = ⟨table ++ [r1], []⟩ := by
    unfold Writer.processRecord
    rw [hsame.1, hsame.2.1, hsame.2.2,
      checkDuplicate_true_of_match (table ++ [r1]) r1 (by simp) r1.link
        r1.userID r1.organizationID hlink hten rfl rfl rfl]
    simp
  rw [h3]
  have h4 : Writer.flushBatch ⟨table ++ [r1], []⟩ = ⟨table ++ [r1], []⟩ := by
    unfold Writer.flushBatch
    simp
  rw [h4]
  unfold Writer.matchCount
  rw [List.filter_append]
  have h5 : table.filter (fun r =>
      r.link = r1.link ∧ r.userID = r1.userID ∧ r.organizationID = r1.organizationID)
      = [] := by
    rw [List.filter_eq_nil_iff]
    intro r hr
    simp only [decide_eq_true_eq]
    intro hmatch
    exact hfresh r hr ⟨hmatch.1, Or.inl hmatch.2.1⟩
  rw [h5]
  simp

/-- C6: witness for the amended deduplication theorem at a concrete input. -/
theorem dedup_two_batches_single_row_witness :
    Writer.matchCount
      (Writer.flushBatch (Writer.processRecord
        (Writer.flushBatch (Writer.processRecord ⟨[], []⟩
          ⟨"u", "", "https://x/1", "place", "t", "", "", "", "", []⟩))
        ⟨"u", "", "https://x/1", "place", "t2", "", "", "", "", []⟩)).results
      "https://x/1" "u" "" = 1 := by
  exact dedup_two_batches_single_row []
    ⟨"u", "", "https://x/1", "place", "t", "", "", "", "", []⟩
    ⟨"u", "", "https://x/1", "place", "t2", "", "", "", "", []⟩
    (by decide) (by decide) (by exact ⟨rfl, rfl, rfl⟩) (by intro r hr; cases hr)

/-- C6: counterexample to the claim as stated.  Two results carrying the
same link (the empty string) and the same tenant (user "u", no
organization), written in two successive successful batches, leave two
rows for that link and tenant, because checkDuplicateURL returns false
for an empty URL and the repeat record is therefore not suppressed. -/
theorem dedup_fails_on_empty_link :
    Writer.matchCount
      (Writer.flushBatch (Writer.processRecord
        (Writer.flushBatch (Writer.processRecord ⟨[], []⟩
          ⟨"u", "", "", "place", "t", "", "", "", "", []⟩))
        ⟨"u", "", "", "place", "t", "", "", "", "", []⟩)).results
      "" "u" "" = 2 := by
  decide

theorem ratTrunc_intCast (n : Int) : Codec.ratTrunc (n : Rat) = n := by
  unfold Codec.ratTrunc
  by_cases h : (n : Rat) < 0
  · rw [if_pos h, ← Int.cast_neg, Int.floor_intCast]
    omega
  · rw [if_neg h]
    exact_mod_cast Int.floor_intCast n

theorem ok_bind {α β : Type} (a : α) (f : α → Except String β) :
    (Except.ok a >>= f) = f a := rfl

theorem mapM_loop_asStr (xs : List String) :
    ∀ acc : List String,
      List.mapM.loop Codec.asStr (xs.map Codec.JValue.jstr) acc
        = Except.ok (acc.reverse ++ xs) := by
  induction xs with
  | nil =>
      intro acc
      simp [List.mapM.loop]
      rfl
  | cons x xs ih =>
      intro acc
      simp only [List.map_cons, List.mapM.loop, Codec.asStr]
      show List.mapM.loop Codec.asStr (List.map Codec.JValue.jstr xs) (x :: acc)
        = Except.ok (acc.reverse ++ x :: xs)
      rw [ih (x :: acc)]
      simp

theorem entry_roundtrip (e : Codec.Entry) :
    Codec.entryFromJ (Codec.entryToJ e) = Except.ok e := by
  simp [Codec.entryToJ, Codec.entryFromJ, Codec.readStr,
    Codec.readStrList, Codec.mlookup, Codec.strListToJ, mapM_loop_asStr,
    ok_bind]

theorem mapM_loop_params (ps : List (String × String)) :
    ∀ acc : List (String × String),
      List.mapM.loop (fun p => (Codec.asStr p.2).map (fun s => (p.1, s)))
        (ps.map (fun p => (p.1, Codec.JValue.jstr p.2))) acc
        = Except.ok (acc.reverse ++ ps) := by
  induction ps with
  | nil =>
      intro acc
      simp [List.mapM.loop]
      rfl
  | cons p ps ih =>
      intro acc
      simp only [List.map_cons, List.mapM.loop, Codec.asStr, Except.map]
      show List.mapM.loop (fun p => (Codec.asStr p.2).map (fun s => (p.1, s)))
          (ps.map (fun p => (p.1, Codec.JValue.jstr p.2))) ((p.1, p.2) :: acc)
        = Except.ok (acc.reverse ++ p :: ps)
      rw [ih ((p.1, p.2) :: acc)]
      simp

theorem mapM_loop_params_cons (x : String × String) (ps : List (String × String))
    (acc : List (String × String)) :
    List.mapM.loop (fun p => (Codec.asStr p.2).map (fun s => (p.1, s)))
      ((x.1, Codec.JValue.jstr x.2) :: ps.map (fun p => (p.1, Codec.JValue.jstr p.2))) acc
      = Except.ok (acc.reverse ++ x :: ps) := by
  have h := mapM_loop_params (x :: ps) acc
  simpa using h

theorem toJSONJob_roundtrip (jj : Codec.JSONJob) :
    Codec.toJSONJob (Codec.jsonJobToJ jj) = Except.ok jj := by
  obtain ⟨id, priority, url, urlParams, maxRetries, jobType, metadata, parentID⟩ := jj
  cases parentID with
  | none =>
      cases urlParams with
      | nil =>
          simp [Codec.jsonJobToJ, Codec.toJSONJob, Codec.readStr, Codec.readInt,
            Codec.readParams, Codec.readMeta, Codec.readOptStr, Codec.mlookup,
            Codec.paramsToJ, Rat.den_intCast, Rat.num_intCast]
          rfl
      | cons p ps =>
          simp [Codec.jsonJobToJ, Codec.toJSONJob, Codec.readStr, Codec.readInt,
            Codec.readParams, Codec.readMeta, Codec.readOptStr, Codec.mlookup,
            Codec.paramsToJ, Rat.den_intCast, Rat.num_intCast, mapM_loop_params_cons]
          rfl
  | some pid =>
      cases urlParams with
      | nil =>
          simp [Codec.jsonJobToJ, Codec.toJSONJob, Codec.readStr, Codec.readInt,
            Codec.readParams, Codec.readMeta, Codec.readOptStr, Codec.mlookup,
            Codec.paramsToJ, Rat.den_intCast, Rat.num_intCast]
          rfl
      | cons p ps =>
          simp [Codec.jsonJobToJ, Codec.toJSONJob, Codec.readStr, Codec.readInt,
            Codec.readParams, Codec.readMeta, Codec.readOptStr, Codec.mlookup,
            Codec.paramsToJ, Rat.den_intCast, Rat.num_intCast, mapM_loop_params_cons]
          rfl

theorem entryToJ_obj (e : Codec.Entry) :
    ∃ fs, Codec.entryToJ e = Codec.JValue.jobj fs
      ∧ Codec.entryFromJ (Codec.JValue.jobj fs) = Except.ok e :=
  ⟨_, rfl, entry_roundtrip e⟩

theorem decodeGmap_encodeGmap (g : Codec.GmapJob) :
    Codec.decodeGmap (Codec.encodeGmap g) = Except.ok g := by
  obtain ⟨⟨jid, pid, jurl, jparams, jmr, jprio⟩, md, lc, ee, eb, ow, og⟩ := g
  by_cases h : pid = ""
  · subst h
    simp [Codec.decodeGmap, Codec.encodeGmap, Codec.getIntFromMetadata,
      Codec.getStrMeta, Codec.getBoolMeta, Codec.getBoolMetaD, Codec.mlookup,
      ratTrunc_intCast, ok_bind]
  · simp [Codec.decodeGmap, Codec.encodeGmap, Codec.getIntFromMetadata,
      Codec.getStrMeta, Codec.getBoolMeta, Codec.getBoolMetaD, Codec.mlookup,
      ratTrunc_intCast, h, ok_bind]

theorem decodePlace_encodePlace (g : Codec.PlaceJob) :
    Codec.decodePlace (Codec.encodePlace g) = Except.ok g := by
  obtain ⟨⟨jid, pid, jurl, jparams, jmr, jprio⟩, ur, ee, eb, ow, og⟩ := g
  by_cases h : pid = ""
  · subst h
    simp [Codec.decodePlace, Codec.encodePlace, Codec.getStrMeta,
      Codec.getBoolMeta, Codec.getBoolMetaD, Codec.mlookup, ok_bind]
  · simp [Codec.decodePlace, Codec.encodePlace, Codec.getStrMeta,
      Codec.getBoolMeta, Codec.getBoolMetaD, Codec.mlookup, h, ok_bind]

theorem decodeEmail_encodeEmail (g : Codec.EmailExtractJob) :
    Codec.decodeEmail (Codec.encodeEmail g) = Except.ok g := by
  obtain ⟨⟨jid, pid, jurl, jparams, jmr, jprio⟩, ow, og, en⟩ := g
  by_cases h : pid = ""
  · subst h
    simp [Codec.decodeEmail, Codec.encodeEmail, Codec.getStrMeta,
      Codec.mlookup, Codec.newEmailJob, Codec.entryToJ, Codec.entryFromJ,
      Codec.readStr, Codec.readStrList, Codec.strListToJ, mapM_loop_asStr,
      ok_bind]
  · simp [Codec.decodeEmail, Codec.encodeEmail, Codec.getStrMeta,
      Codec.mlookup, Codec.newEmailJob, Codec.entryToJ, Codec.entryFromJ,
      Codec.readStr, Codec.readStrList, Codec.strListToJ, mapM_loop_asStr, h,
      ok_bind]

theorem decodeCompany_encodeCompany (g : Codec.CompanyJob) :
    Codec.decodeCompany (Codec.encodeCompany g) = Except.ok g := by
  obtain ⟨⟨jid, pid, jurl, jparams, jmr, jprio⟩, ow, og, cn, ad, en⟩ := g
  by_cases h : pid = ""
  · subst h
    simp [Codec.decodeCompany, Codec.encodeCompany, Codec.getStrMeta,
      Codec.mlookup, Codec.entryToJ, Codec.entryFromJ, Codec.readStr,
      Codec.readStrList, Codec.strListToJ, mapM_loop_asStr, ok_bind]
  · simp [Codec.decodeCompany, Codec.encodeCompany, Codec.getStrMeta,
      Codec.mlookup, Codec.entryToJ, Codec.entryFromJ, Codec.readStr,
      Codec.readStrList, Codec.strListToJ, mapM_loop_asStr, h, ok_bind]

theorem decodePappers_encodePappers (g : Codec.PappersJob) :
    Codec.decodePappers (Codec.encodePappers g) = Except.ok g := by
  obtain ⟨⟨jid, pid, jurl, jparams, jmr, jprio⟩, ow, og, en⟩ := g
  by_cases h : pid = ""
  · subst h
    simp [Codec.decodePappers, Codec.encodePappers, Codec.getStrMeta,
      Codec.mlookup, Codec.entryToJ, Codec.entryFromJ, Codec.readStr,
      Codec.readStrList, Codec.strListToJ, mapM_loop_asStr, ok_bind]
  · simp [Codec.decodePappers, Codec.encodePappers, Codec.getStrMeta,
      Codec.mlookup, Codec.entryToJ, Codec.entryFromJ, Codec.readStr,
      Codec.readStrList, Codec.strListToJ, mapM_loop_asStr, h, ok_bind]

theorem decodeJobR_direct_eval (tag : String) (c : Codec.JobCodec)
    (hc : Codec.getCodec tag = some c) (jj : Codec.JSONJob) :
    Codec.decodeJobR tag (Codec.RawPayload.direct (Codec.jsonJobToJ jj))
      = c.decode jj := by
  unfold Codec.decodeJobR Codec.unwrapPayload
  rw [toJSONJob_roundtrip, ok_bind, hc]

/-- C5: for every registered codec and every job value of that codec's
variant, encoding through the registry and decoding the marshalled envelope
back through the registry yields the original job; in particular the email
variant's nested entry record survives the re-marshal and unmarshal round
trip (as do the entry records of the bodacc and pappers variants). -/
theorem codec_envelope_roundtrip (j : Codec.IJob) :
    ∃ jj : Codec.JSONJob,
      Codec.encodeJobR j = Except.ok (jj, Codec.jobTypeTag j)
      ∧ Codec.decodeJobR (Codec.jobTypeTag j)
          (Codec.RawPayload.direct (Codec.jsonJobToJ jj)) = Except.ok j := by
  cases j with
  | gmap g =>
      refine ⟨Codec.encodeGmap g, rfl, ?_⟩
      simp only [Codec.jobTypeTag]
      rw [decodeJobR_direct_eval "search" Codec.gmapJobCodec rfl]
      show (Codec.decodeGmap (Codec.encodeGmap g)).map Codec.IJob.gmap = _
      rw [decodeGmap_encodeGmap]
      rfl
  | place g =>
      refine ⟨Codec.encodePlace g, rfl, ?_⟩
      simp only [Codec.jobTypeTag]
      rw [decodeJobR_direct_eval "place" Codec.placeJobCodec rfl]
      show (Codec.decodePlace (Codec.encodePlace g)).map Codec.IJob.place = _
      rw [decodePlace_encodePlace]
      rfl
  | email g =>
      refine ⟨Codec.encodeEmail g, rfl, ?_⟩
      simp only [Codec.jobTypeTag]
      rw [decodeJobR_direct_eval "email" Codec.emailJobCodec rfl]
      show (Codec.decodeEmail (Codec.encodeEmail g)).map Codec.IJob.email = _
      rw [decodeEmail_encodeEmail]
      rfl
  | company g =>
      refine ⟨Codec.encodeCompany g, rfl, ?_⟩
      simp only [Codec.jobTypeTag]
      rw [decodeJobR_direct_eval "bodacc" Codec.companyJobCodec rfl]
      show (Codec.decodeCompany (Codec.encodeCompany g)).map Codec.IJob.company = _
      rw [decodeCompany_encodeCompany]
      rfl
  | pappers g =>
      refine ⟨Codec.encodePappers g, rfl, ?_⟩
      simp only [Codec.jobTypeTag]
      rw [decodeJobR_direct_eval "pappers" Codec.pappersJobCodec rfl]
      show (Codec.decodePappers (Codec.encodePappers g)).map Codec.IJob.pappers = _
      rw [decodePappers_encodePappers]
      rfl

theorem isOkE_map {α β : Type} (f : α → β) (x : Except String α) :
    Codec.isOkE (x.map f) = Codec.isOkE x := by
  cases x <;> rfl

theorem hasStrKey_getStrMeta (md : List (String × Codec.JValue)) (k : String) :
    Codec.hasStrKey md k = Codec.isOkE (Codec.getStrMeta md k) := by
  unfold Codec.hasStrKey Codec.getStrMeta Codec.isOkE
  cases h : Codec.mlookup md k with
  | none => simp
  | some v => cases v <;> simp

theorem hasBoolKey_getBoolMeta (md : List (String × Codec.JValue)) (k : String) :
    Codec.hasBoolKey md k = Codec.isOkE (Codec.getBoolMeta md k) := by
  unfold Codec.hasBoolKey Codec.getBoolMeta Codec.isOkE
  cases h : Codec.mlookup md k with
  | none => simp
  | some v => cases v <;> simp

theorem hasNumKey_getInt (md : List (String × Codec.JValue)) (k : String) :
    Codec.hasNumKey md k = Codec.isOkE (Codec.getIntFromMetadata md k) := by
  unfold Codec.hasNumKey Codec.getIntFromMetadata Codec.isOkE
  cases h : Codec.mlookup md k with
  | none => simp
  | some v => cases v <;> simp

theorem decodeGmap_isOk (jj : Codec.JSONJob) :
    Codec.isOkE (Codec.decodeGmap jj)
      = (Codec.hasNumKey jj.metadata "max_depth"
         && Codec.hasStrKey jj.metadata "lang_code"
         && Codec.hasBoolKey jj.metadata "extract_email"
         && Codec.hasStrKey jj.metadata "owner_id"
         && Codec.hasStrKey jj.metadata "organization_id") := by
  rw [hasNumKey_getInt, hasStrKey_getStrMeta, hasBoolKey_getBoolMeta,
    hasStrKey_getStrMeta, hasStrKey_getStrMeta]
  unfold Codec.decodeGmap
  cases h1 : Codec.getIntFromMetadata jj.metadata "max_depth" with
  | error e => rfl
  | ok a =>
      cases h2 : Codec.getStrMeta jj.metadata "lang_code" with
      | error e => rfl
      | ok b =>
          cases h3 : Codec.getBoolMeta jj.metadata "extract_email" with
          | error e => rfl
          | ok c =>
              cases h4 : Codec.getStrMeta jj.metadata "owner_id" with
              | error e => rfl
              | ok d =>
                  cases h5 : Codec.getStrMeta jj.metadata "organization_id" with
                  | error e => rfl
                  | ok f => rfl

theorem decodePlace_isOk (jj : Codec.JSONJob) :
    Codec.isOkE (Codec.decodePlace jj)
      = (Codec.hasBoolKey jj.metadata "usage_in_results"
         && Codec.hasBoolKey jj.metadata "extract_email"
         && Codec.hasStrKey jj.metadata "owner_id"
         && Codec.hasStrKey jj.metadata "organization_id") := by
  rw [hasBoolKey_getBoolMeta, hasBoolKey_getBoolMeta, hasStrKey_getStrMeta,
    hasStrKey_getStrMeta]
  unfold Codec.decodePlace
  cases h1 : Codec.getBoolMeta jj.metadata "usage_in_results" with
  | error e => rfl
  | ok a =>
      cases h2 : Codec.getBoolMeta jj.metadata "extract_email" with
      | error e => rfl
      | ok b =>
          cases h3 : Codec.getStrMeta jj.metadata "owner_id" with
          | error e => rfl
          | ok c =>
              cases h4 : Codec.getStrMeta jj.metadata "organization_id" with
              | error e => rfl
              | ok d => rfl

theorem decodeEmail_isOk (jj : Codec.JSONJob) :
    Codec.isOkE (Codec.decodeEmail jj)
      = (Codec.hasStrKey jj.metadata "parent_id"
         && Codec.entryKeyStrict jj.metadata
         && Codec.hasStrKey jj.metadata "owner_id"
         && Codec.hasStrKey jj.metadata "organization_id") := by
  rw [hasStrKey_getStrMeta, hasStrKey_getStrMeta, hasStrKey_getStrMeta]
  unfold Codec.decodeEmail Codec.entryKeyStrict
  cases h1 : Codec.getStrMeta jj.metadata "parent_id" with
  | error e => rfl
  | ok a =>
      cases hE : Codec.mlookup jj.metadata "entry" with
      | none => rfl
      | some v =>
          cases v
          case jobj fs =>
            simp only [ok_bind]
            cases hF : Codec.entryFromJ (Codec.JValue.jobj fs) with
            | error e => rfl
            | ok en =>
                cases h3 : Codec.getStrMeta jj.metadata "owner_id" with
                | error e => rfl
                | ok b =>
                    cases h4 : Codec.getStrMeta jj.metadata "organization_id" with
                    | error e => rfl
                    | ok c => rfl
          all_goals rfl

theorem decodeCompany_isOk (jj : Codec.JSONJob) :
    Codec.isOkE (Codec.decodeCompany jj)
      = (Codec.hasStrKey jj.metadata "company_name"
         && Codec.hasStrKey jj.metadata "address"
         && Codec.hasStrKey jj.metadata "owner_id"
         && Codec.hasStrKey jj.metadata "organization_id"
         && Codec.entryKeyLenient jj.metadata) := by
  rw [hasStrKey_getStrMeta, hasStrKey_getStrMeta, hasStrKey_getStrMeta,
    hasStrKey_getStrMeta]
  unfold Codec.decodeCompany Codec.entryKeyLenient
  cases h1 : Codec.getStrMeta jj.metadata "company_name" with
  | error e => rfl
  | ok a =>
      cases h2 : Codec.getStrMeta jj.metadata "address" with
      | error e => rfl
      | ok b =>
          cases h3 : Codec.getStrMeta jj.metadata "owner_id" with
          | error e => rfl
          | ok c =>
              cases h4 : Codec.getStrMeta jj.metadata "organization_id" with
              | error e => rfl
              | ok d =>
                  cases hE : Codec.mlookup jj.metadata "entry" with
                  | none => rfl
                  | some v =>
                      cases v
                      case jobj fs =>
                        simp only [ok_bind]
                        cases hF : Codec.entryFromJ (Codec.JValue.jobj fs) with
                        | error e => rfl
                        | ok en => rfl
                      all_goals rfl

theorem decodePappers_isOk (jj : Codec.JSONJob) :
    Codec.isOkE (Codec.decodePappers jj)
      = (Codec.hasStrKey jj.metadata "owner_id"
         && Codec.hasStrKey jj.metadata "organization_id"
         && Codec.entryKeyLenient jj.metadata) := by
  rw [hasStrKey_getStrMeta, hasStrKey_getStrMeta]
  unfold Codec.decodePappers Codec.entryKeyLenient
  cases h1 : Codec.getStrMeta jj.metadata "owner_id" with
  | error e => rfl
  | ok a =>
      cases h2 : Codec.getStrMeta jj.metadata "organization_id" with
      | error e => rfl
      | ok b =>
          cases hE : Codec.mlookup jj.metadata "entry" with
          | none => rfl
          | some v =>
              cases v
              case jobj fs =>
                simp only [ok_bind]
                cases hF : Codec.entryFromJ (Codec.JValue.jobj fs) with
                | error e => rfl
                | ok en => rfl
              all_goals rfl

theorem getCodec_unregistered (pt : String) (h1 : pt ≠ "search")
    (h2 : pt ≠ "place") (h3 : pt ≠ "email") (h4 : pt ≠ "bodacc")
    (h5 : pt ≠ "pappers") : Codec.getCodec pt = none := by
  unfold Codec.getCodec Codec.codecRegistry
  simp [List.find?, Codec.gmapJobCodec, Codec.placeJobCodec,
    Codec.emailJobCodec, Codec.companyJobCodec, Codec.pappersJobCodec,
    Ne.symm h1, Ne.symm h2, Ne.symm h3, Ne.symm h4, Ne.symm h5]

/-- C8: decoding a payload whose bytes are a JSON-encoded string wrapping
the envelope JSON (double-encoded) returns the same result as decoding the
inner envelope directly; and for every payload whose envelope unmarshals,
decoding succeeds exactly when the payload type is registered and every
required metadata key of that variant is present with the required JSON
type (for the email variant the entry object must also unmarshal into an
Entry; for bodacc and pappers a present entry object must unmarshal but a
missing or non-object entry is tolerated). -/
theorem decode_double_encoded_and_error_iff :
    (∀ pt v, Codec.decodeJobR pt (Codec.RawPayload.strWrapped v)
        = Codec.decodeJobR pt (Codec.RawPayload.direct v))
    ∧ (∀ pt (p : Codec.RawPayload) (jj : Codec.JSONJob),
        Codec.toJSONJob (Codec.unwrapPayload p) = Except.ok jj →
        (Codec.isOkE (Codec.decodeJobR pt p) = true
          ↔ pt ∈ Codec.registeredTypes
            ∧ Codec.requiredMetaOK pt jj.metadata = true)) := by
  constructor
  · intro pt v
    rfl
  · intro pt p jj h
    unfold Codec.decodeJobR
    rw [h, ok_bind]
    by_cases h1 : pt = "search"
    · subst h1
      rw [show Codec.getCodec "search" = some Codec.gmapJobCodec from rfl]
      show Codec.isOkE ((Codec.decodeGmap jj).map Codec.IJob.gmap) = true ↔ _
      rw [isOkE_map, decodeGmap_isOk]
      simp [Codec.registeredTypes, Codec.requiredMetaOK]
    · by_cases h2 : pt = "place"
      · subst h2
        rw [show Codec.getCodec "place" = some Codec.placeJobCodec from rfl]
        show Codec.isOkE ((Codec.decodePlace jj).map Codec.IJob.place) = true ↔ _
        rw [isOkE_map, decodePlace_isOk]
        simp [Codec.registeredTypes, Codec.requiredMetaOK]
      · by_cases h3 : pt = "email"
        · subst h3
          rw [show Codec.getCodec "email" = some Codec.emailJobCodec from rfl]
          show Codec.isOkE ((Codec.decodeEmail jj).map Codec.IJob.email) = true ↔ _
          rw [isOkE_map, decodeEmail_isOk]
          simp [Codec.registeredTypes, Codec.requiredMetaOK]
        · by_cases h4 : pt = "bodacc"
          · subst h4
            rw [show Codec.getCodec "bodacc" = some Codec.companyJobCodec from rfl]
            show Codec.isOkE ((Codec.decodeCompany jj).map Codec.IJob.company) = true ↔ _
            rw [isOkE_map, decodeCompany_isOk]
            simp [Codec.registeredTypes, Codec.requiredMetaOK]
          · by_cases h5 : pt = "pappers"
            · subst h5
              rw [show Codec.getCodec "pappers" = some Codec.pappersJobCodec from rfl]
              show Codec.isOkE ((Codec.decodePappers jj).map Codec.IJob.pappers) = true ↔ _
              rw [isOkE_map, decodePappers_isOk]
              simp [Codec.registeredTypes, Codec.requiredMetaOK]
            · rw [getCodec_unregistered pt h1 h2 h3 h4 h5]
              simp [Codec.isOkE, Codec.registeredTypes, Codec.requiredMetaOK,
                h1, h2, h3, h4, h5]

/-- C8: witness.  A concrete direct payload whose envelope unmarshals: a
pappers payload carrying string owner and organization ids decodes
successfully, and the equivalence of the main theorem holds at it. -/
theorem decode_double_encoded_and_error_iff_witness :
    Codec.isOkE (Codec.decodeJobR "pappers" (Codec.RawPayload.direct
        (Codec.JValue.jobj [("metadata", Codec.JValue.jobj
          [("owner_id", Codec.JValue.jstr "u"),
           ("organization_id", Codec.JValue.jstr "o")])]))) = true
      ↔ "pappers" ∈ Codec.registeredTypes
        ∧ Codec.requiredMetaOK "pappers"
            [("owner_id", Codec.JValue.jstr "u"),
             ("organization_id", Codec.JValue.jstr "o")] = true :=
  decode_double_encoded_and_error_iff.2 "pappers"
    (Codec.RawPayload.direct
      (Codec.JValue.jobj [("metadata", Codec.JValue.jobj
        [("owner_id", Codec.JValue.jstr "u"),
         ("organization_id", Codec.JValue.jstr "o")])]))
    ⟨"", 0, "", [], 0, "",
      [("owner_id", Codec.JValue.jstr "u"),
       ("organization_id", Codec.JValue.jstr "o")], none⟩
    (by rfl)

namespace Sched

theorem tid_mem_idsT (s : JTree) : s.tid ∈ idsT s := by
  cases s with
  | node i f cs => simp [idsT, JTree.tid]

theorem self_mem_subT (t : JTree) : t ∈ subT t := by
  cases t with
  | node i f cs => simp [subT]

mutual
theorem ids_sub_of_mem_subT (t : JTree) :
    ∀ s ∈ subT t, ∀ x ∈ idsT s, x ∈ idsT t := by
  cases t with
  | node i f cs =>
      intro s hs x hx
      rw [subT, List.mem_cons] at hs
      rcases hs with h | h
      · subst h; exact hx
      · rw [idsT, List.mem_cons]
        exact Or.inr (ids_sub_of_mem_subF cs s h x hx)
theorem ids_sub_of_mem_subF (cs : JForest) :
    ∀ s ∈ subF cs, ∀ x ∈ idsT s, x ∈ idsF cs := by
  cases cs with
  | fnil => intro s hs; rw [subF] at hs; cases hs
  | fcons c cs =>
      intro s hs x hx
      rw [subF, List.mem_append] at hs
      rw [idsF, List.mem_append]
      rcases hs with h | h
      · exact Or.inl (ids_sub_of_mem_subT c s h x hx)
      · exact Or.inr (ids_sub_of_mem_subF cs s h x hx)
end

theorem tid_mem_of_mem_subT (t : JTree) (s : JTree) (hs : s ∈ subT t) :
    s.tid ∈ idsT t :=
  ids_sub_of_mem_subT t s hs s.tid (tid_mem_idsT s)

theorem tid_mem_of_mem_subF (cs : JForest) (s : JTree) (hs : s ∈ subF cs) :
    s.tid ∈ idsF cs :=
  ids_sub_of_mem_subF cs s hs s.tid (tid_mem_idsT s)

theorem mem_subF_of_mem_toList : (cs : JForest) → (c : JTree) →
    c ∈ toList cs → c ∈ subF cs
  | .fnil, c, hc => by rw [toList] at hc; cases hc
  | .fcons d ds, c, hc => by
      rw [toList, List.mem_cons] at hc
      rw [subF, List.mem_append]
      rcases hc with h | h
      · subst h; exact Or.inl (self_mem_subT c)
      · exact Or.inr (mem_subF_of_mem_toList ds c h)

theorem subT_sub_subF : (cs : JForest) → (c : JTree) → c ∈ toList cs →
    ∀ s ∈ subT c, s ∈ subF cs
  | .fnil, c, hc => by rw [toList] at hc; cases hc
  | .fcons d ds, c, hc => by
      intro s hs
      rw [toList, List.mem_cons] at hc
      rw [subF, List.mem_append]
      rcases hc with h | h
      · subst h; exact Or.inl hs
      · exact Or.inr (subT_sub_subF ds c h s hs)

mutual
theorem settledT_iff (P : List Nat) (s : JTree) :
    settledT P s = true ↔ ∀ x ∈ idsT s, x ∈ P := by
  cases s with
  | node i f cs =>
      rw [settledT, idsT, Bool.and_eq_true, decide_eq_true_eq,
        settledF_iff P cs]
      constructor
      · rintro ⟨h1, h2⟩ x hx
        rw [List.mem_cons] at hx
        rcases hx with h | h
        · subst h; exact h1
        · exact h2 x h
      · intro h
        exact ⟨h i (by simp), fun x hx => h x (by simp [hx])⟩
theorem settledF_iff (P : List Nat) (cs : JForest) :
    settledF P cs = true ↔ ∀ x ∈ idsF cs, x ∈ P := by
  cases cs with
  | fnil => rw [settledF]; simp [idsF]
  | fcons c cs =>
      rw [settledF, Bool.and_eq_true, settledT_iff P c, settledF_iff P cs]
      rw [idsF]
      constructor
      · rintro ⟨h1, h2⟩ x hx
        rw [List.mem_append] at hx
        rcases hx with h | h
        · exact h1 x h
        · exact h2 x h
      · intro h
        exact ⟨fun x hx => h x (by simp [hx]), fun x hx => h x (by simp [hx])⟩
end

theorem settledT_stable (P : List Nat) (e : Nat) (s : JTree)
    (he : e ∉ idsT s) : settledT (e :: P) s = settledT P s := by
  rw [Bool.eq_iff_iff, settledT_iff, settledT_iff]
  constructor
  · intro h x hx
    have := h x hx
    rw [List.mem_cons] at this
    rcases this with h1 | h1
    · subst h1; exact absurd hx he
    · exact h1
  · intro h x hx
    exact List.mem_cons_of_mem e (h x hx)

theorem settledT_mono (P : List Nat) (e : Nat) (s : JTree)
    (h : settledT P s = true) : settledT (e :: P) s = true := by
  rw [settledT_iff] at h ⊢
  intro x hx
  exact List.mem_cons_of_mem e (h x hx)

theorem nodup_node (i : Nat) (f : Bool) (cs : JForest)
    (h : (idsT (JTree.node i f cs)).Nodup) :
    i ∉ idsF cs ∧ (idsF cs).Nodup := by
  rw [idsT, List.nodup_cons] at h
  exact h

theorem nodup_fcons (c : JTree) (cs : JForest)
    (h : (idsF (JForest.fcons c cs)).Nodup) :
    (idsT c).Nodup ∧ (idsF cs).Nodup ∧ (idsT c).Disjoint (idsF cs) := by
  rw [idsF] at h
  exact ⟨h.of_append_left, h.of_append_right,
    List.disjoint_of_nodup_append h⟩

mutual
theorem nodup_sub_T (t : JTree) : (idsT t).Nodup →
    ∀ s ∈ subT t, (idsT s).Nodup := by
  cases t with
  | node i f cs =>
      intro h s hs
      rw [subT, List.mem_cons] at hs
      rcases hs with h1 | h1
      · subst h1; exact h
      · exact nodup_sub_F cs (nodup_node i f cs h).2 s h1
theorem nodup_sub_F (cs : JForest) : (idsF cs).Nodup →
    ∀ s ∈ subF cs, (idsT s).Nodup := by
  cases cs with
  | fnil => intro h s hs; rw [subF] at hs; cases hs
  | fcons c cs =>
      intro h s hs
      rw [subF, List.mem_append] at hs
      rcases hs with h1 | h1
      · exact nodup_sub_T c (nodup_fcons c cs h).1 s h1
      · exact nodup_sub_F cs (nodup_fcons c cs h).2.1 s h1
end

theorem sibling_disjoint : (cs : JForest) → (idsF cs).Nodup →
    (c1 : JTree) → c1 ∈ toList cs → (c2 : JTree) → c2 ∈ toList cs →
    (x : Nat) → x ∈ idsT c1 → x ∈ idsT c2 → c1 = c2
  | .fnil, _, c1, hc1, _, _, _, _, _ => by rw [toList] at hc1; cases hc1
  | .fcons d ds, h, c1, hc1, c2, hc2, x, hx1, hx2 => by
      obtain ⟨hd, hds, hdis⟩ := nodup_fcons d ds h
      rw [toList, List.mem_cons] at hc1 hc2
      rcases hc1 with h1 | h1 <;> rcases hc2 with h2 | h2
      · rw [h1, h2]
      · subst h1
        exact absurd (ids_sub_of_mem_subF ds c2 (mem_subF_of_mem_toList ds c2 h2) x hx2)
          (fun hin => hdis hx1 hin)
      · subst h2
        exact absurd (ids_sub_of_mem_subF ds c1 (mem_subF_of_mem_toList ds c1 h1) x hx1)
          (fun hin => hdis hx2 hin)
      · exact sibling_disjoint ds hds c1 h1 c2 h2 x hx1 hx2

theorem toList_nodup : (cs : JForest) → (idsF cs).Nodup → (toList cs).Nodup
  | .fnil, _ => by rw [toList]; exact List.nodup_nil
  | .fcons c cs, h => by
      obtain ⟨hc, hcs, hdis⟩ := nodup_fcons c cs h
      rw [toList, List.nodup_cons]
      refine ⟨fun hmem => ?_, toList_nodup cs hcs⟩
      exact hdis (tid_mem_idsT c)
        (ids_sub_of_mem_subF cs c (mem_subF_of_mem_toList cs c hmem)
          c.tid (tid_mem_idsT c))

theorem settledF_all (P : List Nat) : (cs : JForest) →
    settledF P cs = (toList cs).all (fun c => settledT P c)
  | .fnil => rfl
  | .fcons c cs => by rw [settledF, toList, List.all_cons, settledF_all P cs]

end Sched

namespace Sched

theorem chT_self (i : Nat) (f : Bool) (cs : JForest) :
    chT i (JTree.node i f cs) = some [] := by
  rw [chT, if_pos rfl]

mutual
theorem chT_isSome (e : Nat) (t : JTree) :
    (chT e t).isSome = true ↔ e ∈ idsT t := by
  cases t with
  | node i f cs =>
      rw [chT, idsT]
      by_cases h : e = i
      · subst h
        rw [if_pos rfl]
        simp only [Option.isSome_some, List.mem_cons]
        exact ⟨fun _ => Or.inl trivial, fun _ => trivial⟩
      · rw [if_neg h, List.mem_cons]
        cases hf : chF e cs with
        | none =>
            simp only [Option.map_none', Option.isSome_none]
            constructor
            · intro hh; cases hh
            · intro hm
              rcases hm with h1 | h1
              · exact absurd h1 h
              · have h2 := (chF_isSome e cs).mpr h1
                rw [hf] at h2
                cases h2
        | some l =>
            simp only [Option.map_some', Option.isSome_some, true_iff]
            exact Or.inr ((chF_isSome e cs).mp (by rw [hf]; rfl))
theorem chF_isSome (e : Nat) (cs : JForest) :
    (chF e cs).isSome = true ↔ e ∈ idsF cs := by
  cases cs with
  | fnil => rw [chF]; simp [idsF]
  | fcons c cs =>
      rw [chF, idsF]
      cases h : chT e c with
      | some l =>
          simp only [Option.isSome_some, true_iff]
          rw [List.mem_append]
          exact Or.inl ((chT_isSome e c).mp (by rw [h]; rfl))
      | none =>
          rw [chF_isSome e cs, List.mem_append]
          constructor
          · exact Or.inr
          · intro hm
            rcases hm with h1 | h1
            · have := (chT_isSome e c).mpr h1
              rw [h] at this
              cases this
            · exact h1
end

theorem chT_none (e : Nat) (t : JTree) (he : e ∉ idsT t) : chT e t = none := by
  cases h : chT e t with
  | none => rfl
  | some l =>
      exact absurd ((chT_isSome e t).mp (by rw [h]; rfl)) he

theorem chT_nil_root (e : Nat) (t : JTree) (h : chT e t = some []) :
    e = t.tid := by
  cases t with
  | node i f cs =>
      rw [chT] at h
      by_cases he : e = i
      · exact he
      · rw [if_neg he] at h
        revert h
        cases hf : chF e cs with
        | none => intro h; exact Option.noConfusion h
        | some l =>
            intro h
            have h2 : some (l ++ [i]) = some [] := h
            have h3 := Option.some.inj h2
            simp at h3

theorem chF_exists_child (e : Nat) : (cs : JForest) → (l : List Nat) →
    chF e cs = some l → ∃ c ∈ toList cs, chT e c = some l
  | .fnil, l, h => by rw [chF] at h; cases h
  | .fcons c cs, l, h => by
      rw [chF] at h
      revert h
      cases hc : chT e c with
      | some l2 =>
          intro h
          have h2 : some l2 = some l := h
          refine ⟨c, by rw [toList]; simp, ?_⟩
          rw [hc]
          exact h2
      | none =>
          intro h
          have h2 : chF e cs = some l := h
          obtain ⟨d, hd, hdl⟩ := chF_exists_child e cs l h2
          exact ⟨d, by rw [toList]; simp [hd], hdl⟩

theorem chainOK_lift (i : Nat) (f : Bool) (cs : JForest) (c : JTree)
    (hc : c ∈ toList cs) : (l : List Nat) → (n : JTree) → ChainOK c n l →
    ChainOK (JTree.node i f cs) n (l ++ [i])
  | [], n, h => by
      rw [ChainOK] at h
      subst h
      rw [List.nil_append, ChainOK]
      exact ⟨JTree.node i f cs, self_mem_subT _, rfl, hc, rfl⟩
  | p :: rest, n, h => by
      rw [ChainOK] at h
      obtain ⟨pn, hpn, hptid, hchild, hrec⟩ := h
      rw [List.cons_append, ChainOK]
      refine ⟨pn, ?_, hptid, hchild, chainOK_lift i f cs c hc rest pn hrec⟩
      rw [subT, List.mem_cons]
      exact Or.inr (subT_sub_subF cs c hc pn hpn)

mutual
theorem chainOK_of_chT (e : Nat) (t : JTree) (chain : List Nat)
    (h : chT e t = some chain) :
    ∃ n, n ∈ subT t ∧ n.tid = e ∧ ChainOK t n chain := by
  cases t with
  | node i f cs =>
      rw [chT] at h
      by_cases he : e = i
      · rw [if_pos he] at h
        have hc := Option.some.inj h
        subst he
        refine ⟨JTree.node e f cs, self_mem_subT _, rfl, ?_⟩
        rw [← hc, ChainOK]
      · rw [if_neg he] at h
        revert h
        cases hf : chF e cs with
        | none => intro h; exact Option.noConfusion h
        | some l =>
            intro h
            have h2 : some (l ++ [i]) = some chain := h
            have hc := Option.some.inj h2
            obtain ⟨c, hcmem, n2, hmem2, htid2, hOK2⟩ := chainOK_of_chF e cs l hf
            subst hc
            refine ⟨n2, ?_, htid2, chainOK_lift i f cs c hcmem l n2 hOK2⟩
            rw [subT, List.mem_cons]
            exact Or.inr (subT_sub_subF cs c hcmem n2 hmem2)
theorem chainOK_of_chF (e : Nat) (cs : JForest) (l : List Nat)
    (h : chF e cs = some l) :
    ∃ c, c ∈ toList cs ∧ ∃ n, n ∈ subT c ∧ n.tid = e ∧ ChainOK c n l := by
  cases cs with
  | fnil => rw [chF] at h; cases h
  | fcons c cs =>
      rw [chF] at h
      revert h
      cases hc : chT e c with
      | some l2 =>
          intro h
          have h2 : some l2 = some l := h
          have hl := Option.some.inj h2
          subst hl
          obtain ⟨n, hmem, htid, hOK⟩ := chainOK_of_chT e c l2 hc
          exact ⟨c, by rw [toList]; simp, n, hmem, htid, hOK⟩
      | none =>
          intro h
          have h2 : chF e cs = some l := h
          obtain ⟨d, hd, n, hn, htid, hOK⟩ := chainOK_of_chF e cs l h2
          exact ⟨d, by rw [toList]; simp [hd], n, hn, htid, hOK⟩
end

theorem ids_children_sub (n : JTree) : ∀ x ∈ idsF n.children, x ∈ idsT n := by
  cases n with
  | node i f cs =>
      intro x hx
      rw [JTree.children] at hx
      rw [idsT, List.mem_cons]
      exact Or.inr hx

theorem tid_notmem_children (n : JTree) (h : (idsT n).Nodup) :
    n.tid ∉ idsF n.children := by
  cases n with
  | node i f cs =>
      rw [JTree.tid, JTree.children]
      exact (nodup_node i f cs h).1

theorem child_ids_sub (pn : JTree) (c : JTree) (hc : c ∈ toList pn.children) :
    ∀ x ∈ idsT c, x ∈ idsF pn.children :=
  fun x hx => ids_sub_of_mem_subF pn.children c
    (mem_subF_of_mem_toList pn.children c hc) x hx

mutual
theorem subT_tid_uniq (t : JTree) : (idsT t).Nodup →
    ∀ s1 ∈ subT t, ∀ s2 ∈ subT t, s1.tid = s2.tid → s1 = s2 := by
  cases t with
  | node i f cs =>
      intro h s1 hs1 s2 hs2 heq
      obtain ⟨hnm, hnd⟩ := nodup_node i f cs h
      rw [subT, List.mem_cons] at hs1 hs2
      rcases hs1 with h1 | h1 <;> rcases hs2 with h2 | h2
      · rw [h1, h2]
      · subst h1
        rw [JTree.tid] at heq
        exact absurd (heq ▸ tid_mem_of_mem_subF cs s2 h2) hnm
      · subst h2
        rw [JTree.tid] at heq
        exact absurd (heq ▸ tid_mem_of_mem_subF cs s1 h1) hnm
      · exact subF_tid_uniq cs hnd s1 h1 s2 h2 heq
theorem subF_tid_uniq (cs : JForest) : (idsF cs).Nodup →
    ∀ s1 ∈ subF cs, ∀ s2 ∈ subF cs, s1.tid = s2.tid → s1 = s2 := by
  cases cs with
  | fnil => intro _ s1 hs1; rw [subF] at hs1; cases hs1
  | fcons c cs =>
      intro h s1 hs1 s2 hs2 heq
      obtain ⟨hc, hcs, hdis⟩ := nodup_fcons c cs h
      rw [subF, List.mem_append] at hs1 hs2
      rcases hs1 with h1 | h1 <;> rcases hs2 with h2 | h2
      · exact subT_tid_uniq c hc s1 h1 s2 h2 heq
      · exact absurd (heq ▸ tid_mem_of_mem_subF cs s2 h2)
          (fun hin => hdis (tid_mem_of_mem_subT c s1 h1) hin)
      · exact absurd (heq ▸ tid_mem_of_mem_subT c s2 h2)
          (fun hin => hdis hin (tid_mem_of_mem_subF cs s1 h1))
      · exact subF_tid_uniq cs hcs s1 h1 s2 h2 heq
end

theorem chainOK_nodup (t : JTree) (hnd : (idsT t).Nodup) :
    (chain : List Nat) → (n : JTree) → n ∈ subT t → ChainOK t n chain →
    (∀ x ∈ chain, x ∉ idsT n) ∧ chain.Nodup
  | [], n, _, _ => ⟨by simp, List.nodup_nil⟩
  | p :: rest, n, hn, h => by
      rw [ChainOK] at h
      obtain ⟨pn, hpn, hptid, hchild, hrec⟩ := h
      obtain ⟨ih1, ih2⟩ := chainOK_nodup t hnd rest pn hpn hrec
      have hsub : ∀ x ∈ idsT n, x ∈ idsT pn := fun x hx =>
        ids_children_sub pn x (child_ids_sub pn n hchild x hx)
      have hpnot : p ∉ idsT n := by
        intro hin
        subst hptid
        exact tid_notmem_children pn (nodup_sub_T t hnd pn hpn)
          (child_ids_sub pn n hchild pn.tid hin)
      constructor
      · intro x hx
        rw [List.mem_cons] at hx
        rcases hx with h1 | h1
        · subst h1; exact hpnot
        · intro hin
          exact ih1 x h1 (hsub x hin)
      · rw [List.nodup_cons]
        refine ⟨fun hin => ?_, ih2⟩
        subst hptid
        exact ih1 pn.tid hin (tid_mem_idsT pn)

theorem chainOK_last_root (t : JTree) :
    (chain : List Nat) → (n : JTree) → ChainOK t n chain →
    chain ≠ [] → t.tid ∈ chain
  | [], n, _, hne => absurd rfl hne
  | p :: rest, n, h, _ => by
      rw [ChainOK] at h
      obtain ⟨pn, hpn, hptid, hchild, hrec⟩ := h
      rw [List.mem_cons]
      cases rest with
      | nil =>
          rw [ChainOK] at hrec
          subst hrec
          exact Or.inl hptid
      | cons q rest =>
          exact Or.inr (chainOK_last_root t (q :: rest) pn hrec (by simp))

theorem chF_finds_self : (cs : JForest) → (idsF cs).Nodup → (c : JTree) →
    c ∈ toList cs → chF c.tid cs = some []
  | .fnil, _, c, hc => by rw [toList] at hc; cases hc
  | .fcons d ds, h, c, hc => by
      obtain ⟨hd, hds, hdis⟩ := nodup_fcons d ds h
      rw [toList, List.mem_cons] at hc
      rw [chF]
      rcases hc with h1 | h1
      · subst h1
        cases c with
        | node i f ccs => rw [JTree.tid, chT_self]
      · have hne : c.tid ∉ idsT d := by
          intro hin
          exact hdis hin (ids_sub_of_mem_subF ds c
            (mem_subF_of_mem_toList ds c h1) c.tid (tid_mem_idsT c))
        rw [chT_none c.tid d hne]
        exact chF_finds_self ds hds c h1

mutual
theorem chT_child (t : JTree) : (idsT t).Nodup →
    ∀ pn ∈ subT t, ∀ c ∈ toList pn.children,
      ∃ rest, chT c.tid t = some (pn.tid :: rest) := by
  cases t with
  | node i f cs =>
      intro h pn hpn c hc
      obtain ⟨hnm, hnd⟩ := nodup_node i f cs h
      rw [subT, List.mem_cons] at hpn
      rcases hpn with h1 | h1
      · subst h1
        have hneq : c.tid ≠ i := by
          intro heq
          exact hnm (heq ▸ child_ids_sub (JTree.node i f cs) c hc c.tid
            (tid_mem_idsT c))
        refine ⟨[], ?_⟩
        rw [chT, if_neg hneq]
        have hcs : c ∈ toList (JTree.node i f cs).children := hc
        rw [JTree.children] at hcs
        rw [chF_finds_self cs hnd c hcs, JTree.tid]
        rfl
      · obtain ⟨rest, hrest⟩ := chT_child_F cs hnd pn h1 c hc
        have hctid : c.tid ∈ idsF cs := by
          have h2 : c.tid ∈ idsT pn :=
            ids_children_sub pn c.tid (child_ids_sub pn c hc c.tid (tid_mem_idsT c))
          exact ids_sub_of_mem_subF cs pn h1 c.tid h2
        have hneq : c.tid ≠ i := fun heq => hnm (heq ▸ hctid)
        refine ⟨rest ++ [i], ?_⟩
        rw [chT, if_neg hneq, hrest]
        rfl
theorem chT_child_F (cs : JForest) : (idsF cs).Nodup →
    ∀ pn ∈ subF cs, ∀ c ∈ toList pn.children,
      ∃ rest, chF c.tid cs = some (pn.tid :: rest) := by
  cases cs with
  | fnil => intro _ pn hpn; rw [subF] at hpn; cases hpn
  | fcons d ds =>
      intro h pn hpn c hc
      obtain ⟨hd, hds, hdis⟩ := nodup_fcons d ds h
      rw [subF, List.mem_append] at hpn
      rcases hpn with h1 | h1
      · obtain ⟨rest, hrest⟩ := chT_child d hd pn h1 c hc
        refine ⟨rest, ?_⟩
        rw [chF, hrest]
      · obtain ⟨rest, hrest⟩ := chT_child_F ds hds pn h1 c hc
        have hne : c.tid ∉ idsT d := by
          intro hin
          have h2 : c.tid ∈ idsT pn :=
            ids_children_sub pn c.tid (child_ids_sub pn c hc c.tid (tid_mem_idsT c))
          exact hdis hin (ids_sub_of_mem_subF ds pn h1 c.tid h2)
        refine ⟨rest, ?_⟩
        rw [chF, chT_none c.tid d hne]
        exact hrest
end

theorem settledT_unfold (P : List Nat) (n : JTree) :
    settledT P n = (decide (n.tid ∈ P) && settledF P n.children) := by
  cases n with
  | node i f cs => rw [settledT, JTree.tid, JTree.children]

theorem settledT_false_of_missing (P : List Nat) (s : JTree) (x : Nat)
    (hx : x ∈ idsT s) (hxP : x ∉ P) : settledT P s = false := by
  cases h : settledT P s with
  | false => rfl
  | true => exact absurd ((settledT_iff P s).mp h x hx) hxP

theorem settledF_false_of_mem (P : List Nat) (cs : JForest) (c : JTree)
    (hc : c ∈ toList cs) (h : settledT P c = false) : settledF P cs = false := by
  rw [settledF_all]
  cases hall : (toList cs).all (fun c => settledT P c) with
  | false => rfl
  | true =>
      have := List.all_eq_true.mp hall c hc
      rw [h] at this
      cases this

theorem filter_split_counts (P : List Nat) (l : List JTree) :
    (l.filter (fun c => settledT P c && !c.fl)).length
      + (l.filter (fun c => settledT P c && c.fl)).length
      = (l.filter (fun c => settledT P c)).length := by
  induction l with
  | nil => rfl
  | cons c l ih =>
      cases hs : settledT P c <;> cases hfl : c.fl <;>
        simp [List.filter_cons, hs, hfl] <;> omega

theorem all_congr_b (l : List JTree) (p q : JTree → Bool)
    (h : ∀ a ∈ l, p a = q a) : l.all p = l.all q := by
  induction l with
  | nil => rfl
  | cons c l ih =>
      rw [List.all_cons, List.all_cons, h c (List.mem_cons_self c l),
        ih (fun a ha => h a (List.mem_cons_of_mem c ha))]

theorem filter_len_eq_iff_all (l : List JTree) (p : JTree → Bool) :
    ((l.filter p).length = l.length) ↔ l.all p = true := by
  rw [List.all_eq_true]
  constructor
  · intro h a ha
    have heq : l.filter p = l := (List.filter_sublist l).eq_of_length h
    exact List.of_mem_filter (p := p) (by rw [heq]; exact ha)
  · intro h
    rw [List.filter_eq_self.mpr h]

theorem counts_le_flen (P : List Nat) (cs : JForest) :
    countDone P cs + countFail P cs ≤ flen cs := by
  unfold countDone countFail flen
  rw [filter_split_counts]
  exact List.length_filter_le _ _

theorem counts_ge_iff_settled (P : List Nat) (cs : JForest) :
    (flen cs ≤ countDone P cs + countFail P cs) ↔ settledF P cs = true := by
  unfold countDone countFail flen
  rw [filter_split_counts, settledF_all, ← filter_len_eq_iff_all]
  have := List.length_filter_le (fun c => settledT P c) (toList cs)
  omega

theorem counts_stable (P : List Nat) (e : Nat) (cs : JForest)
    (h : ∀ c ∈ toList cs, e ∉ idsT c) :
    countDone (e :: P) cs = countDone P cs
    ∧ countFail (e :: P) cs = countFail P cs
    ∧ settledF (e :: P) cs = settledF P cs := by
  have hcong : ∀ c ∈ toList cs, settledT (e :: P) c = settledT P c :=
    fun c hc => settledT_stable P e c (h c hc)
  unfold countDone countFail
  rw [settledF_all, settledF_all]
  refine ⟨?_, ?_, ?_⟩
  · rw [List.filter_congr (fun c hc => by rw [hcong c hc])]
  · rw [List.filter_congr (fun c hc => by rw [hcong c hc])]
  · exact all_congr_b (toList cs) _ _ hcong

theorem counts_flip_list (P : List Nat) (e : Nat) (c0 : JTree)
    (h0 : settledT P c0 = false) (h1 : settledT (e :: P) c0 = true) :
    (l : List JTree) → c0 ∈ l → l.Nodup →
    (∀ c ∈ l, c ≠ c0 → e ∉ idsT c) →
    (l.filter (fun c => settledT (e :: P) c && !c.fl)).length
        = (l.filter (fun c => settledT P c && !c.fl)).length
          + (if c0.fl then 0 else 1)
    ∧ (l.filter (fun c => settledT (e :: P) c && c.fl)).length
        = (l.filter (fun c => settledT P c && c.fl)).length
          + (if c0.fl then 1 else 0)
  | [], hmem, _, _ => by cases hmem
  | d :: l, hmem, hnd, hother => by
      rw [List.nodup_cons] at hnd
      rw [List.mem_cons] at hmem
      by_cases hd : d = c0
      · subst hd
        have hstab : ∀ c ∈ l, settledT (e :: P) c = settledT P c := by
          intro c hc
          refine settledT_stable P e c (hother c (List.mem_cons_of_mem d hc) ?_)
          intro heq
          subst heq
          exact hnd.1 hc
        have hfl1 : List.filter (fun c => settledT (e :: P) c && !c.fl) l
            = List.filter (fun c => settledT P c && !c.fl) l :=
          List.filter_congr (fun c hc => by rw [hstab c hc])
        have hfl2 : List.filter (fun c => settledT (e :: P) c && c.fl) l
            = List.filter (fun c => settledT P c && c.fl) l :=
          List.filter_congr (fun c hc => by rw [hstab c hc])
        cases hfl : d.fl <;>
          simp [List.filter_cons, h0, h1, hfl, hfl1, hfl2] <;> omega
      · have hc0l : c0 ∈ l := by
          rcases hmem with h2 | h2
          · exact absurd h2.symm hd
          · exact h2
        have hde : e ∉ idsT d :=
          hother d (List.mem_cons_self d l) hd
        have hds : settledT (e :: P) d = settledT P d := settledT_stable P e d hde
        obtain ⟨ih1, ih2⟩ := counts_flip_list P e c0 h0 h1 l hc0l hnd.2
          (fun c hc hne => hother c (List.mem_cons_of_mem d hc) hne)
        cases hsd : settledT P d <;> cases hfl : d.fl <;>
          simp [List.filter_cons, hds, hsd, hfl] <;> omega

theorem counts_flip (P : List Nat) (e : Nat) (cs : JForest) (c0 : JTree)
    (hmem : c0 ∈ toList cs) (hnd : (toList cs).Nodup)
    (hother : ∀ c ∈ toList cs, c ≠ c0 → e ∉ idsT c)
    (h0 : settledT P c0 = false) (h1 : settledT (e :: P) c0 = true) :
    countDone (e :: P) cs = countDone P cs + (if c0.fl then 0 else 1)
    ∧ countFail (e :: P) cs = countFail P cs + (if c0.fl then 1 else 0) := by
  unfold countDone countFail
  exact counts_flip_list P e c0 h0 h1 (toList cs) hmem hnd hother

theorem statusOf_settled (t : JTree)
    (hwf2 : ∀ s ∈ subT t, s.fl = true → flen s.children = 0)
    (n : JTree) (hn : n ∈ subT t) (P : List Nat)
    (hset : settledT P n = true) (hmem : n.tid ∈ P) :
    statusOf n P = (if n.fl then Status.failed else Status.done) := by
  unfold statusOf
  rw [if_pos hmem]
  by_cases hl : flen n.children = 0
  · rw [if_pos hl]
  · rw [if_neg hl]
    rw [settledT_unfold] at hset
    rw [Bool.and_eq_true] at hset
    rw [if_pos hset.2]
    have hfl : n.fl = false := by
      cases hfl : n.fl with
      | false => rfl
      | true => exact absurd (hwf2 n hn hfl) hl
    rw [hfl]
    rfl

theorem chain_stable (t : JTree) (hnd : (idsT t).Nodup) (P : List Nat)
    (e : Nat) :
    (chain : List Nat) → (m : JTree) → m ∈ subT t → ChainOK t m chain →
    e ∈ idsT m → (x0 : Nat) → x0 ∈ idsT m → x0 ∉ e :: P →
    ∀ q ∈ chain, ∀ qn, qn ∈ subT t → qn.tid = q →
      countDone (e :: P) qn.children = countDone P qn.children
      ∧ countFail (e :: P) qn.children = countFail P qn.children
      ∧ settledF (e :: P) qn.children = false
      ∧ settledF P qn.children = false
  | [], m, _, _, _, x0, _, _ => by intro q hq; cases hq
  | p :: rest, m, hm, hOK, heM, x0, hx0, hx0P => by
      rw [ChainOK] at hOK
      obtain ⟨pn, hpn, hptid, hchild, hrec⟩ := hOK
      intro q hq qn hqn hqtid
      rw [List.mem_cons] at hq
      rcases hq with h1 | h1
      · subst h1
        have hqe : qn = pn :=
          subT_tid_uniq t hnd qn hqn pn hpn (hqtid.trans hptid.symm)
        subst hqe
        have hpnd : (idsT qn).Nodup := nodup_sub_T t hnd qn hqn
        have hcnd : (idsF qn.children).Nodup := by
          cases qn with
          | node i f cs =>
              rw [JTree.children]
              exact (nodup_node i f cs hpnd).2
        have hm0 : settledT P m = false :=
          settledT_false_of_missing P m x0 hx0 (fun hin => hx0P (by simp [hin]))
        have hm1 : settledT (e :: P) m = false :=
          settledT_false_of_missing (e :: P) m x0 hx0 hx0P
        have hptw : ∀ c ∈ toList qn.children, settledT (e :: P) c = settledT P c := by
          intro c hc
          by_cases hcm : e ∈ idsT c
          · have : c = m := sibling_disjoint qn.children hcnd c hc m hchild e hcm heM
            subst this
            rw [hm0, hm1]
          · exact settledT_stable P e c hcm
        have heqD : countDone (e :: P) qn.children = countDone P qn.children := by
          unfold countDone
          rw [List.filter_congr (fun c hc => by rw [hptw c hc])]
        have heqF : countFail (e :: P) qn.children = countFail P qn.children := by
          unfold countFail
          rw [List.filter_congr (fun c hc => by rw [hptw c hc])]
        have hsf : settledF P qn.children = false :=
          settledF_false_of_mem P qn.children m hchild hm0
        have hsf2 : settledF (e :: P) qn.children = false :=
          settledF_false_of_mem (e :: P) qn.children m hchild hm1
        exact ⟨heqD, heqF, hsf2, hsf⟩
      · exact chain_stable t hnd P e rest pn hpn hrec
          (ids_children_sub pn e (child_ids_sub pn m hchild e heM))
          x0 (ids_children_sub pn x0 (child_ids_sub pn m hchild x0 hx0))
          hx0P q h1 qn hqn hqtid

theorem children_ids_nodup (n : JTree) (h : (idsT n).Nodup) :
    (idsF n.children).Nodup := by
  cases n with
  | node i f cs =>
      rw [JTree.children]
      exact (nodup_node i f cs h).2

theorem settledF_mono (P : List Nat) (e : Nat) (cs : JForest)
    (h : settledF P cs = true) : settledF (e :: P) cs = true := by
  rw [settledF_iff] at h ⊢
  exact fun x hx => List.mem_cons_of_mem e (h x hx)

theorem flen_pos_of_settledF_false (P : List Nat) (cs : JForest)
    (h : settledF P cs = false) : 0 < flen cs := by
  cases cs with
  | fnil => rw [settledF] at h; exact absurd h (by decide)
  | fcons c cs => rw [flen, toList, List.length_cons]; omega

theorem statusOf_processing (n : JTree) (P : List Nat) (hmem : n.tid ∈ P)
    (h : settledF P n.children = false) : statusOf n P = Status.processing := by
  have hpos : 0 < flen n.children := flen_pos_of_settledF_false P n.children h
  unfold statusOf
  rw [if_pos hmem, if_neg (by omega), h]
  rfl

theorem statusOf_done_internal (n : JTree) (P : List Nat) (hmem : n.tid ∈ P)
    (hfl : 0 < flen n.children) (h : settledF P n.children = true) :
    statusOf n P = Status.done := by
  unfold statusOf
  rw [if_pos hmem, if_neg (by omega), h]
  rfl

theorem checkAndMarkParentDone_one (j p : Nat) (st : St) :
    checkAndMarkParentDone j [p] st
      = (if (if st.status j = Status.done then incCompleted p st else st).childCount p
            ≤ (if st.status j = Status.done then incCompleted p st else st).completed p
              + (if st.status j = Status.done then incCompleted p st else st).failed p
          ∧ 0 < (if st.status j = Status.done then incCompleted p st else st).childCount p
        then emit p (setStatus p Status.done
            (if st.status j = Status.done then incCompleted p st else st))
        else (if st.status j = Status.done then incCompleted p st else st)) := rfl

theorem checkAndMarkParentDone_cons2 (j p q : Nat) (rest : List Nat) (st : St) :
    checkAndMarkParentDone j (p :: q :: rest) st
      = (if (if st.status j = Status.done then incCompleted p st else st).childCount p
            ≤ (if st.status j = Status.done then incCompleted p st else st).completed p
              + (if st.status j = Status.done then incCompleted p st else st).failed p
          ∧ 0 < (if st.status j = Status.done then incCompleted p st else st).childCount p
        then checkAndMarkParentDone p (q :: rest) (setStatus p Status.done
            (if st.status j = Status.done then incCompleted p st else st))
        else (if st.status j = Status.done then incCompleted p st else st)) := rfl

theorem rollup_lemma (t : JTree) (hnd : (idsT t).Nodup)
    (hwf2 : ∀ s ∈ subT t, s.fl = true → flen s.children = 0)
    (P : List Nat) (e : Nat) (heP : e ∉ P) :
    (chain : List Nat) → (j : Nat) → (jn : JTree) →
    jn ∈ subT t → jn.tid = j → ChainOK t jn chain →
    e ∈ idsT jn → settledT (e :: P) jn = true →
    (∀ q ∈ chain, q ∈ P) →
    (st : St) →
    st.status j = (if jn.fl then Status.failed else Status.done) →
    st.childCount j = flen jn.children →
    st.completed j = countDone (e :: P) jn.children →
    st.failed j = countFail (e :: P) jn.children →
    (∀ q ∈ chain, ∀ qn, qn ∈ subT t → qn.tid = q →
        st.status q = statusOf qn P
        ∧ st.childCount q = flen qn.children
        ∧ st.completed q = countDone P qn.children
        ∧ st.failed q = countFail (e :: P) qn.children) →
    (∀ n ∈ subT t, n ≠ jn → n.tid ∉ chain →
        st.status n.tid = statusOf n (e :: P)
        ∧ st.childCount n.tid = (if n.tid ∈ e :: P then flen n.children else 0)
        ∧ st.completed n.tid = countDone (e :: P) n.children
        ∧ st.failed n.tid = countFail (e :: P) n.children) →
    st.notes = (if chain = [] then
        (if settledT (e :: P) t && !t.fl then [t.tid] else []) else []) →
    Inv t (e :: P) (checkAndMarkParentDone j chain st)
  | [], j, jn, hjn, hjtid, _, _, hsetJ, _, st, hstJ, hstJC, hstJCo, hstJF,
      _, hstOff, hnotes => by
      have hjmem : jn.tid ∈ e :: P :=
        (settledT_iff (e :: P) jn).mp hsetJ jn.tid (tid_mem_idsT jn)
      show Inv t (e :: P) st
      rw [Inv]
      refine ⟨?_, ?_⟩
      · intro n hn
        by_cases hnj : n = jn
        · subst hnj
          refine ⟨?_, ?_, ?_, ?_⟩
          · rw [hjtid, hstJ, statusOf_settled t hwf2 n hn (e :: P) hsetJ hjmem]
          · rw [if_pos hjmem, hjtid, hstJC]
          · rw [hjtid, hstJCo]
          · rw [hjtid, hstJF]
        · exact hstOff n hn hnj (List.not_mem_nil n.tid)
      · rw [hnotes, if_pos rfl]
  | p :: rest, j, jn, hjn, hjtid, hOK, heJ, hsetJ, hchainP, st, hstJ, hstJC,
      hstJCo, hstJF, hstChain, hstOff, hnotes => by
      have hOK2 := hOK
      rw [ChainOK] at hOK2
      obtain ⟨pn, hpn, hptid, hchild, hrec⟩ := hOK2
      have hjmem : jn.tid ∈ e :: P :=
        (settledT_iff (e :: P) jn).mp hsetJ jn.tid (tid_mem_idsT jn)
      have hpnd : (idsT pn).Nodup := nodup_sub_T t hnd pn hpn
      have hcnd : (idsF pn.children).Nodup := children_ids_nodup pn hpnd
      have hjinC : j ∈ idsF pn.children :=
        hjtid ▸ child_ids_sub pn jn hchild jn.tid (tid_mem_idsT jn)
      have hjp : j ≠ p := by
        intro h
        subst h
        exact tid_notmem_children pn hpnd (by rw [hptid]; exact hjinC)
      have hjtp : jn.tid ≠ p := by rw [hjtid]; exact hjp
      have hpP : p ∈ P := hchainP p (List.mem_cons_self p rest)
      have hpP2 : p ∈ e :: P := List.mem_cons_of_mem e hpP
      have hflpos : 0 < flen pn.children := by
        rw [flen]
        cases h : toList pn.children with
        | nil => rw [h] at hchild; cases hchild
        | cons a l => rw [List.length_cons]; omega
      have hpnfl : pn.fl = false := by
        cases h : pn.fl with
        | false => rfl
        | true => exact absurd (hwf2 pn hpn h) (by omega)
      have hndC : (toList pn.children).Nodup := toList_nodup pn.children hcnd
      have hother : ∀ c ∈ toList pn.children, c ≠ jn → e ∉ idsT c := by
        intro c hc hne hin
        exact hne (sibling_disjoint pn.children hcnd c hc jn hchild e hin heJ)
      have h0 : settledT P jn = false := settledT_false_of_missing P jn e heJ heP
      obtain ⟨hflipD, hflipF⟩ :=
        counts_flip P e pn.children jn hchild hndC hother h0 hsetJ
      obtain ⟨hsp, hcp, hcop, hfp⟩ :=
        hstChain p (List.mem_cons_self p rest) pn hpn hptid
      have hchainnd : (p :: rest).Nodup :=
        (chainOK_nodup t hnd (p :: rest) jn hjn hOK).2
      have hprest : p ∉ rest := (List.nodup_cons.mp hchainnd).1
      have hepn : e ∈ idsT pn :=
        ids_children_sub pn e (child_ids_sub pn jn hchild e heJ)
      have hjnfinal : st.status jn.tid = statusOf jn (e :: P)
          ∧ st.childCount jn.tid
              = (if jn.tid ∈ e :: P then flen jn.children else 0)
          ∧ st.completed jn.tid = countDone (e :: P) jn.children
          ∧ st.failed jn.tid = countFail (e :: P) jn.children :=
        ⟨by rw [hjtid, hstJ, statusOf_settled t hwf2 jn hjn (e :: P) hsetJ hjmem],
         by rw [if_pos hjmem, hjtid, hstJC],
         by rw [hjtid, hstJCo], by rw [hjtid, hstJF]⟩
      have hjdone : (st.status j = Status.done) ↔ (jn.fl = false) := by
        rw [hstJ]
        cases hfl : jn.fl <;> simp
      obtain ⟨st1, hst1def⟩ :
          ∃ s, (if st.status j = Status.done then incCompleted p st else st) = s :=
        ⟨_, rfl⟩
      have hst1status : st1.status = st.status := by
        rw [← hst1def]
        by_cases h : st.status j = Status.done
        · rw [if_pos h]; rfl
        · rw [if_neg h]
      have hst1cc : st1.childCount = st.childCount := by
        rw [← hst1def]
        by_cases h : st.status j = Status.done
        · rw [if_pos h]; rfl
        · rw [if_neg h]
      have hst1failed : st1.failed = st.failed := by
        rw [← hst1def]
        by_cases h : st.status j = Status.done
        · rw [if_pos h]; rfl
        · rw [if_neg h]
      have hst1notes : st1.notes = st.notes := by
        rw [← hst1def]
        by_cases h : st.status j = Status.done
        · rw [if_pos h]; rfl
        · rw [if_neg h]
      have hst1co : ∀ k, k ≠ p → st1.completed k = st.completed k := by
        intro k hk
        rw [← hst1def]
        by_cases h : st.status j = Status.done
        · rw [if_pos h]
          show (if k = p then st.completed k + 1 else st.completed k)
              = st.completed k
          rw [if_neg hk]
        · rw [if_neg h]
      have hst1cop : st1.completed p = countDone (e :: P) pn.children := by
        rw [hflipD, ← hst1def]
        cases hfl : jn.fl with
        | false =>
            rw [if_pos (hjdone.mpr hfl)]
            show (if p = p then st.completed p + 1 else st.completed p)
                = countDone P pn.children + (if false = true then 0 else 1)
            rw [if_pos rfl, if_neg (by decide), hcop]
        | true =>
            rw [if_neg (fun h => Bool.noConfusion ((hjdone.mp h).symm.trans hfl)),
              if_pos rfl, hcop]
            omega
      have hcond : (st1.childCount p ≤ st1.completed p + st1.failed p
            ∧ 0 < st1.childCount p)
          ↔ settledF (e :: P) pn.children = true := by
        rw [hst1cc, hst1failed, hst1cop, hcp, hfp]
        constructor
        · intro h
          exact (counts_ge_iff_settled (e :: P) pn.children).mp h.1
        · intro h
          exact ⟨(counts_ge_iff_settled (e :: P) pn.children).mpr h, hflpos⟩
      by_cases hA : settledF (e :: P) pn.children = true
      · -- the parent flips to done: emit at the root, else keep rolling up
        have hsetpn : settledT (e :: P) pn = true := by
          rw [settledT_unfold, hptid, hA]
          simp [hpP2]
        cases rest with
        | nil =>
            rw [ChainOK] at hrec
            rw [checkAndMarkParentDone_one, hst1def, if_pos (hcond.mpr hA)]
            rw [Inv]
            refine ⟨?_, ?_⟩
            · intro n hn
              by_cases hnj : n = jn
              · subst hnj
                refine ⟨?_, ?_, ?_, ?_⟩
                · show (if n.tid = p then Status.done else st1.status n.tid)
                      = statusOf n (e :: P)
                  rw [if_neg hjtp, hst1status]
                  exact hjnfinal.1
                · show st1.childCount n.tid = _
                  rw [hst1cc]; exact hjnfinal.2.1
                · show st1.completed n.tid = _
                  rw [hst1co n.tid hjtp]; exact hjnfinal.2.2.1
                · show st1.failed n.tid = _
                  rw [hst1failed]; exact hjnfinal.2.2.2
              · by_cases hnp : n = pn
                · subst hnp
                  refine ⟨?_, ?_, ?_, ?_⟩
                  · show (if n.tid = p then Status.done else st1.status n.tid)
                        = statusOf n (e :: P)
                    rw [if_pos hptid,
                      statusOf_done_internal n (e :: P)
                        (by rw [hptid]; exact hpP2) hflpos hA]
                  · show st1.childCount n.tid = _
                    rw [hst1cc, hptid, hcp, if_pos hpP2]
                  · show st1.completed n.tid = _
                    rw [hptid]; exact hst1cop
                  · show st1.failed n.tid = _
                    rw [hst1failed, hptid]; exact hfp
                · have hntp : n.tid ≠ p := fun h =>
                    hnp (subT_tid_uniq t hnd n hn pn hpn (by rw [h, hptid]))
                  have hoff := hstOff n hn hnj (by
                    intro hmem
                    rw [List.mem_cons] at hmem
                    rcases hmem with h | h
                    · exact hntp h
                    · exact List.not_mem_nil n.tid h)
                  refine ⟨?_, ?_, ?_, ?_⟩
                  · show (if n.tid = p then Status.done else st1.status n.tid) = _
                    rw [if_neg hntp, hst1status]; exact hoff.1
                  · show st1.childCount n.tid = _
                    rw [hst1cc]; exact hoff.2.1
                  · show st1.completed n.tid = _
                    rw [hst1co n.tid hntp]; exact hoff.2.2.1
                  · show st1.failed n.tid = _
                    rw [hst1failed]; exact hoff.2.2.2
            · show st1.notes ++ [p] = _
              rw [hst1notes, hnotes, if_neg (List.cons_ne_nil p []),
                List.nil_append, ← hrec, hsetpn, hpnfl, hptid]
              rfl
        | cons q rest2 =>
            rw [checkAndMarkParentDone_cons2, hst1def, if_pos (hcond.mpr hA)]
            refine rollup_lemma t hnd hwf2 P e heP (q :: rest2) p pn hpn hptid hrec
              hepn hsetpn (fun x hx => hchainP x (List.mem_cons_of_mem p hx))
              (setStatus p Status.done st1) ?_ ?_ ?_ ?_ ?_ ?_ ?_
            · show (if p = p then Status.done else st1.status p) = _
              rw [if_pos rfl, hpnfl]
              rfl
            · show st1.childCount p = _
              rw [hst1cc]; exact hcp
            · show st1.completed p = _
              exact hst1cop
            · show st1.failed p = _
              rw [hst1failed]; exact hfp
            · intro x hx qn hqn hqtid
              have hxp : x ≠ p := fun h => hprest (h ▸ hx)
              obtain ⟨hs, hc, hco, hf⟩ :=
                hstChain x (List.mem_cons_of_mem p hx) qn hqn hqtid
              refine ⟨?_, ?_, ?_, ?_⟩
              · show (if x = p then Status.done else st1.status x) = _
                rw [if_neg hxp, hst1status]; exact hs
              · show st1.childCount x = _
                rw [hst1cc]; exact hc
              · show st1.completed x = _
                rw [hst1co x hxp]; exact hco
              · show st1.failed x = _
                rw [hst1failed]; exact hf
            · intro n hn hne hnotin
              by_cases hnj : n = jn
              · subst hnj
                refine ⟨?_, ?_, ?_, ?_⟩
                · show (if n.tid = p then Status.done else st1.status n.tid) = _
                  rw [if_neg hjtp, hst1status]; exact hjnfinal.1
                · show st1.childCount n.tid = _
                  rw [hst1cc]; exact hjnfinal.2.1
                · show st1.completed n.tid = _
                  rw [hst1co n.tid hjtp]; exact hjnfinal.2.2.1
                · show st1.failed n.tid = _
                  rw [hst1failed]; exact hjnfinal.2.2.2
              · have hntp : n.tid ≠ p := fun h =>
                  hne (subT_tid_uniq t hnd n hn pn hpn (by rw [h, hptid]))
                have hoff := hstOff n hn hnj (by
                  intro hmem
                  rw [List.mem_cons] at hmem
                  rcases hmem with h | h
                  · exact hntp h
                  · exact hnotin h)
                refine ⟨?_, ?_, ?_, ?_⟩
                · show (if n.tid = p then Status.done else st1.status n.tid) = _
                  rw [if_neg hntp, hst1status]; exact hoff.1
                · show st1.childCount n.tid = _
                  rw [hst1cc]; exact hoff.2.1
                · show st1.completed n.tid = _
                  rw [hst1co n.tid hntp]; exact hoff.2.2.1
                · show st1.failed n.tid = _
                  rw [hst1failed]; exact hoff.2.2.2
            · show st1.notes = _
              rw [hst1notes, hnotes, if_neg (List.cons_ne_nil p (q :: rest2)),
                if_neg (List.cons_ne_nil q rest2)]
      · -- the parent still has unsettled children: the rollup stops here
        have hBf : settledF (e :: P) pn.children = false := by
          cases h : settledF (e :: P) pn.children with
          | false => rfl
          | true => exact absurd h hA
        have hex : ¬ ∀ x ∈ idsF pn.children, x ∈ e :: P := by
          intro h
          rw [(settledF_iff (e :: P) pn.children).mpr h] at hBf
          exact absurd hBf (by decide)
        push_neg at hex
        obtain ⟨x0, hx0C, hx0P⟩ := hex
        have hx0pn : x0 ∈ idsT pn := ids_children_sub pn x0 hx0C
        have hCS := chain_stable t hnd P e rest pn hpn hrec hepn x0 hx0pn hx0P
        have hsfP : settledF P pn.children = false := by
          cases h : settledF P pn.children with
          | false => rfl
          | true =>
              rw [settledF_mono P e pn.children h] at hBf
              exact absurd hBf (by decide)
        have hstatpn : statusOf pn P = Status.processing :=
          statusOf_processing pn P (by rw [hptid]; exact hpP) hsfP
        have hstatpn2 : statusOf pn (e :: P) = Status.processing :=
          statusOf_processing pn (e :: P) (by rw [hptid]; exact hpP2) hBf
        have hsetTfalse : settledT (e :: P) t = false :=
          settledT_false_of_missing (e :: P) t x0
            (ids_sub_of_mem_subT t pn hpn x0 hx0pn) hx0P
        have hcnot : ¬ (st1.childCount p ≤ st1.completed p + st1.failed p
            ∧ 0 < st1.childCount p) := fun hc => hA (hcond.mp hc)
        have hgoal : Inv t (e :: P) st1 := by
          rw [Inv]
          refine ⟨?_, ?_⟩
          · intro n hn
            by_cases hnj : n = jn
            · subst hnj
              refine ⟨?_, ?_, ?_, ?_⟩
              · show st1.status n.tid = _
                rw [hst1status]; exact hjnfinal.1
              · show st1.childCount n.tid = _
                rw [hst1cc]; exact hjnfinal.2.1
              · show st1.completed n.tid = _
                rw [hst1co n.tid hjtp]; exact hjnfinal.2.2.1
              · show st1.failed n.tid = _
                rw [hst1failed]; exact hjnfinal.2.2.2
            · by_cases hnp : n = pn
              · subst hnp
                refine ⟨?_, ?_, ?_, ?_⟩
                · show st1.status n.tid = _
                  rw [hst1status, hptid, hsp, hstatpn, hstatpn2]
                · show st1.childCount n.tid = _
                  rw [hst1cc, hptid, hcp, if_pos hpP2]
                · show st1.completed n.tid = _
                  rw [hptid]; exact hst1cop
                · show st1.failed n.tid = _
                  rw [hst1failed, hptid]; exact hfp
              · by_cases hnr : n.tid ∈ rest
                · obtain ⟨hcsD, hcsF, hcsS2, hcsS⟩ := hCS n.tid hnr n hn rfl
                  obtain ⟨hs, hc, hco, hf⟩ :=
                    hstChain n.tid (List.mem_cons_of_mem p hnr) n hn rfl
                  have hntp : n.tid ≠ p := fun h =>
                    hnp (subT_tid_uniq t hnd n hn pn hpn (by rw [h, hptid]))
                  have hnP : n.tid ∈ P :=
                    hchainP n.tid (List.mem_cons_of_mem p hnr)
                  refine ⟨?_, ?_, ?_, ?_⟩
                  · show st1.status n.tid = _
                    rw [hst1status, hs, statusOf_processing n P hnP hcsS,
                      statusOf_processing n (e :: P)
                        (List.mem_cons_of_mem e hnP) hcsS2]
                  · show st1.childCount n.tid = _
                    rw [hst1cc, hc, if_pos (List.mem_cons_of_mem e hnP)]
                  · show st1.completed n.tid = _
                    rw [hst1co n.tid hntp, hco, hcsD]
                  · show st1.failed n.tid = _
                    rw [hst1failed]; exact hf
                · have hntp : n.tid ≠ p := fun h =>
                    hnp (subT_tid_uniq t hnd n hn pn hpn (by rw [h, hptid]))
                  have hoff := hstOff n hn hnj (by
                    intro hmem
                    rw [List.mem_cons] at hmem
                    rcases hmem with h | h
                    · exact hntp h
                    · exact hnr h)
                  refine ⟨?_, ?_, ?_, ?_⟩
                  · show st1.status n.tid = _
                    rw [hst1status]; exact hoff.1
                  · show st1.childCount n.tid = _
                    rw [hst1cc]; exact hoff.2.1
                  · show st1.completed n.tid = _
                    rw [hst1co n.tid hntp]; exact hoff.2.2.1
                  · show st1.failed n.tid = _
                    rw [hst1failed]; exact hoff.2.2.2
          · show st1.notes = _
            rw [hst1notes, hnotes, if_neg (List.cons_ne_nil p rest), hsetTfalse]
            rfl
        cases rest with
        | nil =>
            rw [checkAndMarkParentDone_one, hst1def, if_neg hcnot]
            exact hgoal
        | cons q rest2 =>
            rw [checkAndMarkParentDone_cons2, hst1def, if_neg hcnot]
            exact hgoal

mutual
theorem subT_trans (t : JTree) : ∀ s ∈ subT t, ∀ x ∈ subT s, x ∈ subT t := by
  cases t with
  | node i f cs =>
      intro s hs x hx
      rw [subT, List.mem_cons] at hs ⊢
      rcases hs with h | h
      · subst h
        rw [subT, List.mem_cons] at hx
        exact hx
      · exact Or.inr (subF_trans cs s h x hx)
theorem subF_trans (cs : JForest) : ∀ s ∈ subF cs, ∀ x ∈ subT s, x ∈ subF cs := by
  cases cs with
  | fnil => intro s hs x hx; rw [subF] at hs; cases hs
  | fcons c ds =>
      intro s hs x hx
      rw [subF, List.mem_append] at hs ⊢
      rcases hs with h | h
      · exact Or.inl (subT_trans c s h x hx)
      · exact Or.inr (subF_trans ds s h x hx)
end

theorem mem_subT_of_child (qn : JTree) (c : JTree) (hc : c ∈ toList qn.children) :
    c ∈ subT qn := by
  cases qn with
  | node i f cs =>
      rw [JTree.children] at hc
      rw [subT, List.mem_cons]
      exact Or.inr (mem_subF_of_mem_toList cs c hc)

mutual
theorem findT_sound (e : Nat) (t : JTree) (n : JTree) (h : findT e t = some n) :
    n ∈ subT t ∧ n.tid = e := by
  cases t with
  | node i f cs =>
      by_cases he : e = i
      · rw [findT, if_pos he] at h
        have h2 := Option.some.inj h
        subst h2
        exact ⟨self_mem_subT _, he.symm⟩
      · rw [findT, if_neg he] at h
        obtain ⟨h1, h2⟩ := findF_sound e cs n h
        refine ⟨?_, h2⟩
        rw [subT, List.mem_cons]
        exact Or.inr h1
theorem findF_sound (e : Nat) (cs : JForest) (n : JTree) (h : findF e cs = some n) :
    n ∈ subF cs ∧ n.tid = e := by
  cases cs with
  | fnil => rw [findF] at h; cases h
  | fcons c ds =>
      rw [findF] at h
      revert h
      cases hc : findT e c with
      | some m =>
          intro h
          have h2 : some m = some n := h
          have h3 := Option.some.inj h2
          subst h3
          obtain ⟨h4, h5⟩ := findT_sound e c m hc
          exact ⟨by rw [subF, List.mem_append]; exact Or.inl h4, h5⟩
      | none =>
          intro h
          have h2 : findF e ds = some n := h
          obtain ⟨h4, h5⟩ := findF_sound e ds n h2
          exact ⟨by rw [subF, List.mem_append]; exact Or.inr h4, h5⟩
end

mutual
theorem findT_isSome (e : Nat) (t : JTree) (h : e ∈ idsT t) :
    (findT e t).isSome = true := by
  cases t with
  | node i f cs =>
      by_cases he : e = i
      · rw [findT, if_pos he]; rfl
      · rw [findT, if_neg he]
        rw [idsT, List.mem_cons] at h
        rcases h with h1 | h1
        · exact absurd h1 he
        · exact findF_isSome e cs h1
theorem findF_isSome (e : Nat) (cs : JForest) (h : e ∈ idsF cs) :
    (findF e cs).isSome = true := by
  cases cs with
  | fnil => rw [idsF] at h; cases h
  | fcons c ds =>
      rw [idsF, List.mem_append] at h
      rw [findF]
      rcases h with h1 | h1
      · have h2 := findT_isSome e c h1
        cases hc : findT e c with
        | some m => rfl
        | none => rw [hc] at h2; exact absurd h2 (by decide)
      · cases hc : findT e c with
        | some m => rfl
        | none => exact findF_isSome e ds h1
end

mutual
theorem chT_parent (t : JTree) (hnd : (idsT t).Nodup) (e p : Nat)
    (rest : List Nat) (h : chT e t = some (p :: rest)) :
    chT p t = some rest := by
  cases t with
  | node i f cs =>
      obtain ⟨hnm, hndc⟩ := nodup_node i f cs hnd
      by_cases he : e = i
      · rw [chT, if_pos he] at h
        exact absurd (Option.some.inj h) (by simp)
      · rw [chT, if_neg he] at h
        revert h
        cases hf : chF e cs with
        | none => intro h; exact Option.noConfusion h
        | some l =>
            intro h
            have h2 : some (l ++ [i]) = some (p :: rest) := h
            have h3 := Option.some.inj h2
            cases l with
            | nil =>
                rw [List.nil_append] at h3
                injection h3 with hp hrest
                rw [← hrest, ← hp]
                exact chT_self i f cs
            | cons a l2 =>
                rw [List.cons_append] at h3
                injection h3 with hp hrest
                rw [hp] at hf
                have hIH : chF p cs = some l2 := chF_parent cs hndc e p l2 hf
                have hpin : p ∈ idsF cs :=
                  (chF_isSome p cs).mp (by rw [hIH]; rfl)
                have hpi : p ≠ i := fun hh => hnm (hh ▸ hpin)
                rw [chT, if_neg hpi, hIH, ← hrest]
                rfl
theorem chF_parent (cs : JForest) (hnd : (idsF cs).Nodup) (e p : Nat)
    (l2 : List Nat) (h : chF e cs = some (p :: l2)) :
    chF p cs = some l2 := by
  cases cs with
  | fnil => rw [chF] at h; cases h
  | fcons c ds =>
      obtain ⟨hc, hds, hdis⟩ := nodup_fcons c ds hnd
      rw [chF] at h
      revert h
      cases hct : chT e c with
      | some l =>
          intro h
          have h2 : some l = some (p :: l2) := h
          have h3 := Option.some.inj h2
          subst h3
          have hIH : chT p c = some l2 := chT_parent c hc e p l2 hct
          rw [chF, hIH]
      | none =>
          intro h
          have h2 : chF e ds = some (p :: l2) := h
          have hIH := chF_parent ds hds e p l2 h2
          have hpin : p ∈ idsF ds := (chF_isSome p ds).mp (by rw [hIH]; rfl)
          have hpc : p ∉ idsT c := fun hh => hdis hh hpin
          rw [chF, chT_none p c hpc]
          exact hIH
end

theorem chain_mem_P (t : JTree) (hnd : (idsT t).Nodup) (P : List Nat)
    (hPC : ParentClosed t P) :
    (chain : List Nat) → (e : Nat) → chT e t = some chain →
    (∀ p rest, chain = p :: rest → p ∈ P) →
    ∀ q ∈ chain, q ∈ P
  | [], e, _, _ => by intro q hq; cases hq
  | p :: rest, e, hch, hhead => by
      have hpP : p ∈ P := hhead p rest rfl
      have htail : chT p t = some rest := chT_parent t hnd e p rest hch
      intro q hq
      rw [List.mem_cons] at hq
      rcases hq with h | h
      · exact h ▸ hpP
      · refine chain_mem_P t hnd P hPC rest p htail ?_ q h
        intro p2 rest2 hr
        exact hPC p hpP p2 rest2 (by rw [← hr]; exact htail)

mutual
theorem ancestor_in_chain_T (t : JTree) (hnd : (idsT t).Nodup) (e : Nat)
    (chain : List Nat) (h : chT e t = some chain) :
    ∀ n ∈ subT t, e ∈ idsT n → n.tid = e ∨ n.tid ∈ chain := by
  cases t with
  | node i f cs =>
      obtain ⟨hnm, hndc⟩ := nodup_node i f cs hnd
      intro n hn hen
      by_cases he : e = i
      · subst he
        rw [subT, List.mem_cons] at hn
        rcases hn with h1 | h1
        · subst h1
          exact Or.inl rfl
        · exact absurd (ids_sub_of_mem_subF cs n h1 e hen) hnm
      · rw [chT, if_neg he] at h
        revert h
        cases hf : chF e cs with
        | none => intro h; exact Option.noConfusion h
        | some l =>
            intro h
            have h2 : some (l ++ [i]) = some chain := h
            have h3 := Option.some.inj h2
            subst h3
            rw [subT, List.mem_cons] at hn
            rcases hn with h1 | h1
            · subst h1
              refine Or.inr ?_
              rw [JTree.tid, List.mem_append]
              exact Or.inr (List.mem_singleton.mpr rfl)
            · rcases ancestor_in_chain_F cs hndc e l hf n h1 hen with h4 | h4
              · exact Or.inl h4
              · exact Or.inr (by rw [List.mem_append]; exact Or.inl h4)
theorem ancestor_in_chain_F (cs : JForest) (hnd : (idsF cs).Nodup) (e : Nat)
    (l : List Nat) (h : chF e cs = some l) :
    ∀ n ∈ subF cs, e ∈ idsT n → n.tid = e ∨ n.tid ∈ l := by
  cases cs with
  | fnil => intro n hn; rw [subF] at hn; cases hn
  | fcons c ds =>
      obtain ⟨hc, hds, hdis⟩ := nodup_fcons c ds hnd
      intro n hn hen
      rw [subF, List.mem_append] at hn
      rw [chF] at h
      revert h
      cases hct : chT e c with
      | some l0 =>
          intro h
          have h2 : some l0 = some l := h
          have h3 := Option.some.inj h2
          subst h3
          have heC : e ∈ idsT c := (chT_isSome e c).mp (by rw [hct]; rfl)
          rcases hn with h1 | h1
          · exact ancestor_in_chain_T c hc e l0 hct n h1 hen
          · exact absurd (ids_sub_of_mem_subF ds n h1 e hen)
              (fun hh => hdis heC hh)
      | none =>
          intro h
          have h2 : chF e ds = some l := h
          rcases hn with h1 | h1
          · have heC : e ∈ idsT c := ids_sub_of_mem_subT c n h1 e hen
            have h4 := (chT_isSome e c).mpr heC
            rw [hct] at h4
            exact absurd h4 (by decide)
          · exact ancestor_in_chain_F ds hds e l h2 n h1 hen
end

theorem parentClosed_cons (t : JTree) (P : List Nat) (hPC : ParentClosed t P)
    (e : Nat) (hpar : ∀ p rest, chT e t = some (p :: rest) → p ∈ P) :
    ParentClosed t (e :: P) := by
  intro j hj p rest hch
  rw [List.mem_cons] at hj
  rcases hj with h | h
  · exact List.mem_cons_of_mem e (hpar p rest (h ▸ hch))
  · exact List.mem_cons_of_mem e (hPC j h p rest hch)

theorem validB_append (t : JTree) :
    (es1 : List Nat) → (P : List Nat) → (es2 : List Nat) →
    validB t P (es1 ++ es2) = true → validB t P es1 = true
  | [], _, _, _ => rfl
  | e :: es1, P, es2, h => by
      rw [List.cons_append, validB] at h
      rw [validB]
      rw [Bool.and_eq_true, Bool.and_eq_true, Bool.and_eq_true] at h ⊢
      obtain ⟨⟨⟨h1, h2⟩, h3⟩, h4⟩ := h
      exact ⟨⟨⟨h1, h2⟩, h3⟩, validB_append t es1 (e :: P) es2 h4⟩

theorem filter_false_nil (l : List JTree) (p : JTree → Bool)
    (h : ∀ a ∈ l, p a = false) : l.filter p = [] := by
  induction l with
  | nil => rfl
  | cons c l ih =>
      rw [List.filter_cons, h c (List.mem_cons_self c l), if_neg (by decide)]
      exact ih fun a ha => h a (List.mem_cons_of_mem c ha)

theorem counts_zero (P : List Nat) (cs : JForest)
    (h : ∀ c ∈ toList cs, settledT P c = false) :
    countDone P cs = 0 ∧ countFail P cs = 0 := by
  unfold countDone countFail
  refine ⟨?_, ?_⟩
  · rw [filter_false_nil (toList cs) _ (fun c hc => by rw [h c hc]; rfl)]
    rfl
  · rw [filter_false_nil (toList cs) _ (fun c hc => by rw [h c hc]; rfl)]
    rfl

theorem countFail_stable_of_fl_false (P : List Nat) (e : Nat) (cs : JForest)
    (h : ∀ c ∈ toList cs, e ∈ idsT c → c.fl = false) :
    countFail (e :: P) cs = countFail P cs := by
  unfold countFail
  refine congrArg List.length (List.filter_congr ?_)
  intro c hc
  by_cases he : e ∈ idsT c
  · rw [h c hc he]
    simp
  · rw [settledT_stable P e c he]

theorem tail_child_fl_false (t : JTree) (hnd : (idsT t).Nodup)
    (hwf2 : ∀ s ∈ subT t, s.fl = true → flen s.children = 0)
    (e p : Nat) (rest : List Nat) (hch : chT e t = some (p :: rest))
    (q : Nat) (hq : q ∈ rest) (qn : JTree) (hqn : qn ∈ subT t)
    (hqtid : qn.tid = q) :
    ∀ c ∈ toList qn.children, e ∈ idsT c → c.fl = false := by
  intro c hc hec
  cases hfl : c.fl with
  | false => rfl
  | true =>
      have hcsub : c ∈ subT t := subT_trans t qn hqn c (mem_subT_of_child qn c hc)
      have hlen := hwf2 c hcsub hfl
      have hceq : c.tid = e := by
        cases c with
        | node i f cs =>
            cases cs with
            | fnil =>
                rw [idsT, idsF, List.mem_cons] at hec
                rcases hec with h1 | h1
                · rw [JTree.tid]; exact h1.symm
                · cases h1
            | fcons d ds =>
                rw [JTree.children, flen, toList, List.length_cons] at hlen
                omega
      obtain ⟨rest3, hch3⟩ := chT_child t hnd qn hqn c hc
      rw [hceq, hch] at hch3
      have h3 := Option.some.inj hch3
      injection h3 with hp _
      obtain ⟨n2, hn2, _, hOK2⟩ := chainOK_of_chT e t (p :: rest) hch
      have hndch : (p :: rest).Nodup :=
        (chainOK_nodup t hnd (p :: rest) n2 hn2 hOK2).2
      have hprest : p ∉ rest := (List.nodup_cons.mp hndch).1
      rw [hp, hqtid] at hprest
      exact absurd hq hprest

theorem statusOf_stable (m : JTree) (P : List Nat) (e : Nat)
    (he : e ∉ idsT m) : statusOf m (e :: P) = statusOf m P := by
  have hne : m.tid ≠ e := fun h => he (h ▸ tid_mem_idsT m)
  have hch : ∀ c ∈ toList m.children, e ∉ idsT c := by
    intro c hc hin
    exact he (ids_children_sub m e (child_ids_sub m c hc e hin))
  have hsf := (counts_stable P e m.children hch).2.2
  unfold statusOf
  rw [hsf]
  by_cases h : m.tid ∈ P
  · rw [if_pos (List.mem_cons_of_mem e h), if_pos h]
  · have hmem2 : m.tid ∉ e :: P := by
      rw [List.mem_cons]
      rintro (h1 | h1)
      · exact hne h1
      · exact h h1
    rw [if_neg hmem2, if_neg h]

theorem children_unsettled (t : JTree) (hnd : (idsT t).Nodup) (P : List Nat)
    (hPC : ParentClosed t P) (n : JTree) (hn : n ∈ subT t) (hnP : n.tid ∉ P) :
    ∀ c ∈ toList n.children, settledT P c = false := by
  intro c hc
  cases hs : settledT P c with
  | false => rfl
  | true =>
      have hcP : c.tid ∈ P := (settledT_iff P c).mp hs c.tid (tid_mem_idsT c)
      obtain ⟨rest3, hch3⟩ := chT_child t hnd n hn c hc
      exact absurd (hPC c.tid hcP n.tid rest3 hch3) hnP

theorem inv_init (t : JTree) : Inv t [] stInit := by
  rw [Inv]
  refine ⟨?_, ?_⟩
  · intro n hn
    have hz := counts_zero [] n.children
      (fun c _ => settledT_false_of_missing [] c c.tid (tid_mem_idsT c)
        (List.not_mem_nil c.tid))
    refine ⟨?_, ?_, ?_, ?_⟩
    · show Status.new = statusOf n []
      unfold statusOf
      rw [if_neg (List.not_mem_nil n.tid)]
    · show 0 = _
      rw [if_neg (List.not_mem_nil n.tid)]
    · show 0 = _
      rw [hz.1]
    · show 0 = _
      rw [hz.2]
  · show ([] : List Nat) = _
    rw [settledT_false_of_missing [] t t.tid (tid_mem_idsT t)
      (List.not_mem_nil t.tid)]
    rfl

theorem markDone_zero (j : Nat) (chain : List Nat) (st : St) :
    markDone j chain 0 st
      = checkAndMarkParentDone j chain
          (if chain = [] ∧ st.childCount j = 0
            then emit j (setStatus j Status.done st)
            else setStatus j Status.done st) := rfl

theorem markDone_pos (j : Nat) (chain : List Nat) (cc : Nat) (hcc : cc ≠ 0)
    (st : St) : markDone j chain cc st = setStatus j Status.processing st := by
  rw [markDone, if_neg hcc]

theorem markFailed_nil (j : Nat) (st : St) :
    markFailed j [] st
      = checkAndMarkParentDone j [] (setStatus j Status.failed st) := rfl

theorem markFailed_cons (j p : Nat) (rest : List Nat) (st : St) :
    markFailed j (p :: rest) st
      = checkAndMarkParentDone j (p :: rest)
          (incFailed p (setStatus j Status.failed st)) := rfl

theorem step_eq (t : JTree) (st : St) (e : Nat) (n : JTree)
    (h : findT e t = some n) :
    step t st e
      = (if flen n.children = 0 then
          (if n.fl then markFailed e (chainOf t e) st
            else markDone e (chainOf t e) 0 st)
        else markDone e (chainOf t e) (flen n.children)
            (addCount e (flen n.children) st)) := by
  rw [step, h]

theorem rollup_frame :
    (chain : List Nat) → (j : Nat) → (st : St) → (k : Nat) → k ∉ chain →
    (checkAndMarkParentDone j chain st).status k = st.status k
    ∧ (checkAndMarkParentDone j chain st).completed k = st.completed k
  | [], _, _, _, _ => ⟨rfl, rfl⟩
  | p :: rest, j, st, k, hk => by
      have hkp : k ≠ p := fun h => hk (by rw [h]; exact List.mem_cons_self p rest)
      have hkrest : k ∉ rest := fun h => hk (List.mem_cons_of_mem p h)
      obtain ⟨st1, hst1def⟩ :
          ∃ s, (if st.status j = Status.done then incCompleted p st else st) = s :=
        ⟨_, rfl⟩
      have h1s : st1.status k = st.status k := by
        rw [← hst1def]
        by_cases h : st.status j = Status.done
        · rw [if_pos h]; rfl
        · rw [if_neg h]
      have h1c : st1.completed k = st.completed k := by
        rw [← hst1def]
        by_cases h : st.status j = Status.done
        · rw [if_pos h]
          show (if k = p then st.completed k + 1 else st.completed k) = _
          rw [if_neg hkp]
        · rw [if_neg h]
      cases rest with
      | nil =>
          rw [checkAndMarkParentDone_one, hst1def]
          by_cases hc : st1.childCount p ≤ st1.completed p + st1.failed p
              ∧ 0 < st1.childCount p
          · rw [if_pos hc]
            refine ⟨?_, ?_⟩
            · show (if k = p then Status.done else st1.status k) = _
              rw [if_neg hkp, h1s]
            · show st1.completed k = _
              exact h1c
          · rw [if_neg hc]
            exact ⟨h1s, h1c⟩
      | cons q rest2 =>
          rw [checkAndMarkParentDone_cons2, hst1def]
          by_cases hc : st1.childCount p ≤ st1.completed p + st1.failed p
              ∧ 0 < st1.childCount p
          · rw [if_pos hc]
            obtain ⟨hs2, hc2⟩ :=
              rollup_frame (q :: rest2) p (setStatus p Status.done st1) k hkrest
            refine ⟨?_, ?_⟩
            · rw [hs2]
              show (if k = p then Status.done else st1.status k) = _
              rw [if_neg hkp, h1s]
            · rw [hc2]
              exact h1c
          · rw [if_neg hc]
            exact ⟨h1s, h1c⟩

theorem step_lemma (t : JTree) (hnd : (idsT t).Nodup)
    (hwf2 : ∀ s ∈ subT t, s.fl = true → flen s.children = 0)
    (P : List Nat) (st : St) (hInv : Inv t P st) (hPC : ParentClosed t P)
    (e : Nat) (heT : e ∈ idsT t) (heP : e ∉ P)
    (hpar : ∀ p rest, chT e t = some (p :: rest) → p ∈ P) :
    Inv t (e :: P) (step t st e) := by
  rw [Inv] at hInv
  obtain ⟨hnodes, hnotes⟩ := hInv
  -- locate the node of e and its ancestor chain
  cases hfind : findT e t with
  | none =>
      have h1 := findT_isSome e t heT
      rw [hfind] at h1
      exact absurd h1 (by decide)
  | some n =>
  obtain ⟨hnsub, hntid⟩ := findT_sound e t n hfind
  cases hchain : chT e t with
  | none =>
      have h1 := (chT_isSome e t).mpr heT
      rw [hchain] at h1
      exact absurd h1 (by decide)
  | some chain =>
  obtain ⟨n2, hn2sub, hn2tid, hOKn2⟩ := chainOK_of_chT e t chain hchain
  have hn2n : n2 = n :=
    subT_tid_uniq t hnd n2 hn2sub n hnsub (by rw [hn2tid, hntid])
  have hOKn : ChainOK t n chain := hn2n ▸ hOKn2
  have hchainP : ∀ q ∈ chain, q ∈ P := by
    refine chain_mem_P t hnd P hPC chain e hchain ?_
    intro p0 rest0 hr
    exact hpar p0 rest0 (hr ▸ hchain)
  have hchainOf : chainOf t e = chain := by
    rw [chainOf, hchain]
    rfl
  have heN : e ∈ idsT n := hntid ▸ tid_mem_idsT n
  obtain ⟨hsn0, hcn0, hcon0, hfn0⟩ := hnodes n hnsub
  have hcc0 : st.childCount n.tid = 0 := by
    rw [hcn0, if_neg (by rw [hntid]; exact heP)]
  have hnotesNil : st.notes = [] := by
    rw [hnotes, settledT_false_of_missing P t e heT heP]
    rfl
  rw [hntid] at hcon0 hfn0 hcc0
  have hbase : ∀ q ∈ chain, ∀ qn, qn ∈ subT t → qn.tid = q →
      st.status q = statusOf qn P
      ∧ st.childCount q = flen qn.children
      ∧ st.completed q = countDone P qn.children
      ∧ st.failed q = countFail P qn.children := by
    intro q hq qn hqn hqtid
    obtain ⟨hs, hc, hco, hf⟩ := hnodes qn hqn
    rw [hqtid] at hs hc hco hf
    exact ⟨hs, by rw [hc, if_pos (hchainP q hq)], hco, hf⟩
  have hoffP : ∀ m ∈ subT t, m ≠ n → m.tid ∉ chain →
      st.status m.tid = statusOf m (e :: P)
      ∧ st.childCount m.tid = (if m.tid ∈ e :: P then flen m.children else 0)
      ∧ st.completed m.tid = countDone (e :: P) m.children
      ∧ st.failed m.tid = countFail (e :: P) m.children := by
    intro m hm hmn hmch
    have hem : e ∉ idsT m := by
      intro hin
      rcases ancestor_in_chain_T t hnd e chain hchain m hm hin with h1 | h1
      · exact hmn (subT_tid_uniq t hnd m hm n hnsub (by rw [h1, hntid]))
      · exact hmch h1
    have hmne : m.tid ≠ e := fun h => hem (h ▸ tid_mem_idsT m)
    obtain ⟨hs, hc, hco, hf⟩ := hnodes m hm
    have hcs := counts_stable P e m.children (fun c hc2 hin =>
      hem (ids_children_sub m e (child_ids_sub m c hc2 e hin)))
    refine ⟨?_, ?_, ?_, ?_⟩
    · rw [hs, statusOf_stable m P e hem]
    · rw [hc]
      by_cases h : m.tid ∈ P
      · rw [if_pos h, if_pos (List.mem_cons_of_mem e h)]
      · have hmem2 : m.tid ∉ e :: P := by
          rw [List.mem_cons]
          rintro (h1 | h1)
          · exact hmne h1
          · exact h h1
        rw [if_neg h, if_neg hmem2]
    · rw [hco, hcs.1]
    · rw [hf, hcs.2.1]
  rw [step_eq t st e n hfind, hchainOf]
  by_cases hleaf : flen n.children = 0
  · rw [if_pos hleaf]
    have hfnil : n.children = JForest.fnil := by
      revert hleaf
      cases hcs : n.children with
      | fnil => intro _; rfl
      | fcons c ds =>
          intro hl
          rw [flen, toList, List.length_cons] at hl
          omega
    have hsetN : settledT (e :: P) n = true := by
      rw [settledT_unfold, hfnil, hntid]
      simp [settledF]
    have hcnts : countDone P n.children = 0 ∧ countFail P n.children = 0 := by
      rw [hfnil]; exact ⟨rfl, rfl⟩
    have hcnts2 : countDone (e :: P) n.children = 0
        ∧ countFail (e :: P) n.children = 0 := by
      rw [hfnil]; exact ⟨rfl, rfl⟩
    by_cases hfl : n.fl = true
    · rw [if_pos hfl]
      cases chain with
      | nil =>
          rw [markFailed_nil]
          refine rollup_lemma t hnd hwf2 P e heP [] e n hnsub hntid ?_ heN hsetN
            (fun q hq => absurd hq (List.not_mem_nil q))
            (setStatus e Status.failed st) ?_ ?_ ?_ ?_ ?_ ?_ ?_
          · rw [ChainOK]
            exact subT_tid_uniq t hnd n hnsub t (self_mem_subT t)
              (by rw [hntid, chT_nil_root e t hchain])
          · show (if e = e then Status.failed else st.status e) = _
            rw [if_pos rfl, hfl]
            rfl
          · show st.childCount e = _
            rw [hcc0, hleaf]
          · show st.completed e = _
            rw [hcon0, hcnts.1, hcnts2.1]
          · show st.failed e = _
            rw [hfn0, hcnts.2, hcnts2.2]
          · intro q hq
            exact absurd hq (List.not_mem_nil q)
          · intro m hm hmn _
            obtain ⟨hs, hc, hco, hf⟩ := hoffP m hm hmn (List.not_mem_nil m.tid)
            have hmne : m.tid ≠ e := fun hh =>
              hmn (subT_tid_uniq t hnd m hm n hnsub (by rw [hh, hntid]))
            refine ⟨?_, hc, hco, hf⟩
            show (if m.tid = e then Status.failed else st.status m.tid) = _
            rw [if_neg hmne]
            exact hs
          · show st.notes = _
            rw [hnotesNil, if_pos rfl]
            have htn : t = n := subT_tid_uniq t hnd t (self_mem_subT t) n hnsub
              (by rw [hntid]; exact (chT_nil_root e t hchain).symm)
            rw [htn, hsetN, hfl]
            rfl
      | cons p rest =>
          rw [markFailed_cons]
          have hOKd := hOKn
          rw [ChainOK] at hOKd
          obtain ⟨pn, hpn, hptid, hchild, hrecOK⟩ := hOKd
          have hpnd2 : (idsT pn).Nodup := nodup_sub_T t hnd pn hpn
          have hcnd2 : (idsF pn.children).Nodup := children_ids_nodup pn hpnd2
          have hndC2 : (toList pn.children).Nodup := toList_nodup pn.children hcnd2
          have hother2 : ∀ c ∈ toList pn.children, c ≠ n → e ∉ idsT c := by
            intro c hc hne hin
            exact hne (sibling_disjoint pn.children hcnd2 c hc n hchild e hin heN)
          have h0n : settledT P n = false := settledT_false_of_missing P n e heN heP
          obtain ⟨hflipD2, hflipF2⟩ :=
            counts_flip P e pn.children n hchild hndC2 hother2 h0n hsetN
          have hep : e ≠ p := by
            intro hh
            exact heP (by rw [hh]; exact hchainP p (List.mem_cons_self p rest))
          have hchainnd2 : (p :: rest).Nodup :=
            (chainOK_nodup t hnd (p :: rest) n hnsub hOKn).2
          have hprest2 : p ∉ rest := (List.nodup_cons.mp hchainnd2).1
          refine rollup_lemma t hnd hwf2 P e heP (p :: rest) e n hnsub hntid hOKn
            heN hsetN hchainP
            (incFailed p (setStatus e Status.failed st)) ?_ ?_ ?_ ?_ ?_ ?_ ?_
          · show (if e = e then Status.failed else st.status e) = _
            rw [if_pos rfl, hfl]
            rfl
          · show st.childCount e = _
            rw [hcc0, hleaf]
          · show st.completed e = _
            rw [hcon0, hcnts.1, hcnts2.1]
          · show (if e = p then st.failed e + 1 else st.failed e) = _
            rw [if_neg hep, hfn0, hcnts.2, hcnts2.2]
          · intro q hq qn hqn hqtid
            obtain ⟨hs, hc, hco, hf⟩ := hbase q hq qn hqn hqtid
            have hqe : q ≠ e := fun hh =>
              heP (by rw [← hh]; exact hchainP q hq)
            refine ⟨?_, hc, hco, ?_⟩
            · show (if q = e then Status.failed else st.status q) = _
              rw [if_neg hqe]
              exact hs
            · rw [List.mem_cons] at hq
              rcases hq with h1 | h1
              · have hqnpn : qn = pn :=
                  subT_tid_uniq t hnd qn hqn pn hpn (by rw [hqtid, h1, hptid])
                show (if q = p then st.failed q + 1 else st.failed q) = _
                rw [hqnpn, if_pos h1, hf, hqnpn, hflipF2, hfl]
                rfl
              · have hqp : q ≠ p := fun hh => hprest2 (hh ▸ h1)
                show (if q = p then st.failed q + 1 else st.failed q) = _
                rw [if_neg hqp, hf,
                  countFail_stable_of_fl_false P e qn.children
                    (tail_child_fl_false t hnd hwf2 e p rest hchain q h1 qn hqn hqtid)]
          · intro m hm hmn hmch
            obtain ⟨hs, hc, hco, hf⟩ := hoffP m hm hmn hmch
            have hmne : m.tid ≠ e := fun hh =>
              hmn (subT_tid_uniq t hnd m hm n hnsub (by rw [hh, hntid]))
            have hmp : m.tid ≠ p := fun hh =>
              hmch (by rw [hh]; exact List.mem_cons_self p rest)
            refine ⟨?_, hc, hco, ?_⟩
            · show (if m.tid = e then Status.failed else st.status m.tid) = _
              rw [if_neg hmne]
              exact hs
            · show (if m.tid = p then st.failed m.tid + 1 else st.failed m.tid) = _
              rw [if_neg hmp]
              exact hf
          · show st.notes = _
            rw [hnotesNil, if_neg (List.cons_ne_nil p rest)]
    · rw [if_neg hfl]
      have hflf : n.fl = false := by
        cases h : n.fl with
        | false => rfl
        | true => exact absurd h hfl
      rw [markDone_zero]
      cases chain with
      | nil =>
          rw [if_pos ⟨rfl, hcc0⟩]
          refine rollup_lemma t hnd hwf2 P e heP [] e n hnsub hntid ?_ heN hsetN
            (fun q hq => absurd hq (List.not_mem_nil q))
            (emit e (setStatus e Status.done st)) ?_ ?_ ?_ ?_ ?_ ?_ ?_
          · rw [ChainOK]
            exact subT_tid_uniq t hnd n hnsub t (self_mem_subT t)
              (by rw [hntid, chT_nil_root e t hchain])
          · show (if e = e then Status.done else st.status e) = _
            rw [if_pos rfl, hflf]
            rfl
          · show st.childCount e = _
            rw [hcc0, hleaf]
          · show st.completed e = _
            rw [hcon0, hcnts.1, hcnts2.1]
          · show st.failed e = _
            rw [hfn0, hcnts.2, hcnts2.2]
          · intro q hq
            exact absurd hq (List.not_mem_nil q)
          · intro m hm hmn _
            obtain ⟨hs, hc, hco, hf⟩ := hoffP m hm hmn (List.not_mem_nil m.tid)
            have hmne : m.tid ≠ e := fun hh =>
              hmn (subT_tid_uniq t hnd m hm n hnsub (by rw [hh, hntid]))
            refine ⟨?_, hc, hco, hf⟩
            show (if m.tid = e then Status.done else st.status m.tid) = _
            rw [if_neg hmne]
            exact hs
          · show st.notes ++ [e] = _
            rw [hnotesNil, List.nil_append, if_pos rfl]
            have htn : t = n := subT_tid_uniq t hnd t (self_mem_subT t) n hnsub
              (by rw [hntid]; exact (chT_nil_root e t hchain).symm)
            rw [htn, hsetN, hflf, hntid]
            rfl
      | cons p rest =>
          rw [if_neg (by
            rintro ⟨h1, _⟩
            exact List.cons_ne_nil p rest h1)]
          have hOKd := hOKn
          rw [ChainOK] at hOKd
          obtain ⟨pn, hpn, hptid, hchild, hrecOK⟩ := hOKd
          have hpnd2 : (idsT pn).Nodup := nodup_sub_T t hnd pn hpn
          have hcnd2 : (idsF pn.children).Nodup := children_ids_nodup pn hpnd2
          refine rollup_lemma t hnd hwf2 P e heP (p :: rest) e n hnsub hntid hOKn
            heN hsetN hchainP (setStatus e Status.done st) ?_ ?_ ?_ ?_ ?_ ?_ ?_
          · show (if e = e then Status.done else st.status e) = _
            rw [if_pos rfl, hflf]
            rfl
          · show st.childCount e = _
            rw [hcc0, hleaf]
          · show st.completed e = _
            rw [hcon0, hcnts.1, hcnts2.1]
          · show st.failed e = _
            rw [hfn0, hcnts.2, hcnts2.2]
          · intro q hq qn hqn hqtid
            obtain ⟨hs, hc, hco, hf⟩ := hbase q hq qn hqn hqtid
            have hqe : q ≠ e := fun hh =>
              heP (by rw [← hh]; exact hchainP q hq)
            refine ⟨?_, hc, hco, ?_⟩
            · show (if q = e then Status.done else st.status q) = _
              rw [if_neg hqe]
              exact hs
            · rw [List.mem_cons] at hq
              rcases hq with h1 | h1
              · have hqnpn : qn = pn :=
                  subT_tid_uniq t hnd qn hqn pn hpn (by rw [hqtid, h1, hptid])
                have hpremise : ∀ c ∈ toList pn.children, e ∈ idsT c → c.fl = false := by
                  intro c hc2 hin
                  have hcn : c = n :=
                    sibling_disjoint pn.children hcnd2 c hc2 n hchild e hin heN
                  rw [hcn]
                  exact hflf
                show st.failed q = _
                rw [hqnpn] at hf ⊢
                rw [hf, countFail_stable_of_fl_false P e pn.children hpremise]
              · show st.failed q = _
                rw [hf, countFail_stable_of_fl_false P e qn.children
                  (tail_child_fl_false t hnd hwf2 e p rest hchain q h1 qn hqn hqtid)]
          · intro m hm hmn hmch
            obtain ⟨hs, hc, hco, hf⟩ := hoffP m hm hmn hmch
            have hmne : m.tid ≠ e := fun hh =>
              hmn (subT_tid_uniq t hnd m hm n hnsub (by rw [hh, hntid]))
            refine ⟨?_, hc, hco, hf⟩
            show (if m.tid = e then Status.done else st.status m.tid) = _
            rw [if_neg hmne]
            exact hs
          · show st.notes = _
            rw [hnotesNil, if_neg (List.cons_ne_nil p rest)]
  · rw [if_neg hleaf, markDone_pos e chain (flen n.children) hleaf
      (addCount e (flen n.children) st)]
    have hex : ∃ c, c ∈ toList n.children := by
      cases hcs : n.children with
      | fnil => exact absurd (by rw [hcs]; rfl) hleaf
      | fcons c ds =>
          refine ⟨c, ?_⟩
          show c ∈ c :: toList ds
          exact List.mem_cons_self c (toList ds)
    obtain ⟨c0, hc0⟩ := hex
    have hc0P : c0.tid ∉ P := by
      intro hin
      obtain ⟨rest3, hch3⟩ := chT_child t hnd n hnsub c0 hc0
      exact heP (by rw [← hntid]; exact hPC c0.tid hin n.tid rest3 hch3)
    have hc0e : c0.tid ≠ e := by
      intro hh
      have hmm := child_ids_sub n c0 hc0 c0.tid (tid_mem_idsT c0)
      rw [hh, ← hntid] at hmm
      exact tid_notmem_children n (nodup_sub_T t hnd n hnsub) hmm
    have hc0eP : c0.tid ∉ e :: P := by
      rw [List.mem_cons]
      rintro (h1 | h1)
      · exact hc0e h1
      · exact hc0P h1
    have hstab : ∀ m, m ∈ subT t → m ≠ n →
        countDone (e :: P) m.children = countDone P m.children
        ∧ countFail (e :: P) m.children = countFail P m.children
        ∧ settledF (e :: P) m.children = settledF P m.children := by
      intro m hm hmn
      have hptw : ∀ c ∈ toList m.children, settledT (e :: P) c = settledT P c := by
        intro c hc
        by_cases hin : e ∈ idsT c
        · cases hm2find : findT e c with
          | none =>
              have h1 := findT_isSome e c hin
              rw [hm2find] at h1
              exact absurd h1 (by decide)
          | some m2 =>
          obtain ⟨hm2sub, hm2tid⟩ := findT_sound e c m2 hm2find
          have hcsubT : c ∈ subT t :=
            subT_trans t m hm c (mem_subT_of_child m c hc)
          have hm2T : m2 ∈ subT t := subT_trans t c hcsubT m2 hm2sub
          have hm2n : m2 = n :=
            subT_tid_uniq t hnd m2 hm2T n hnsub (by rw [hm2tid, hntid])
          have hx : c0.tid ∈ idsT c := by
            refine ids_sub_of_mem_subT c m2 hm2sub c0.tid ?_
            rw [hm2n]
            exact ids_children_sub n c0.tid
              (child_ids_sub n c0 hc0 c0.tid (tid_mem_idsT c0))
          rw [settledT_false_of_missing P c c0.tid hx hc0P,
            settledT_false_of_missing (e :: P) c c0.tid hx hc0eP]
        · exact settledT_stable P e c hin
      refine ⟨?_, ?_, ?_⟩
      · unfold countDone
        rw [List.filter_congr (fun c hc => by rw [hptw c hc])]
      · unfold countFail
        rw [List.filter_congr (fun c hc => by rw [hptw c hc])]
      · rw [settledF_all, settledF_all]
        exact all_congr_b _ _ _ hptw
    have hnch : ∀ c ∈ toList n.children, settledT P c = false :=
      children_unsettled t hnd P hPC n hnsub (by rw [hntid]; exact heP)
    have hnch2 : ∀ c ∈ toList n.children, settledT (e :: P) c = false := by
      intro c hc
      have hctP : c.tid ∉ P := by
        intro hin
        obtain ⟨rest3, hch3⟩ := chT_child t hnd n hnsub c hc
        exact heP (by rw [← hntid]; exact hPC c.tid hin n.tid rest3 hch3)
      have hcte : c.tid ≠ e := by
        intro hh
        have hmm := child_ids_sub n c hc c.tid (tid_mem_idsT c)
        rw [hh, ← hntid] at hmm
        exact tid_notmem_children n (nodup_sub_T t hnd n hnsub) hmm
      refine settledT_false_of_missing (e :: P) c c.tid (tid_mem_idsT c) ?_
      rw [List.mem_cons]
      rintro (h1 | h1)
      · exact hcte h1
      · exact hctP h1
    obtain ⟨hz1, hz2⟩ := counts_zero P n.children hnch
    obtain ⟨hz3, hz4⟩ := counts_zero (e :: P) n.children hnch2
    have hsfn : settledF (e :: P) n.children = false :=
      settledF_false_of_mem (e :: P) n.children c0 hc0 (hnch2 c0 hc0)
    rw [Inv]
    refine ⟨?_, ?_⟩
    · intro m hm
      by_cases hmn : m = n
      · refine ⟨?_, ?_, ?_, ?_⟩
        · rw [hmn]
          show (if n.tid = e then Status.processing else st.status n.tid) = _
          rw [if_pos hntid,
            statusOf_processing n (e :: P)
              (by rw [hntid]; exact List.mem_cons_self e P) hsfn]
        · rw [hmn]
          show (if n.tid = e then st.childCount n.tid + flen n.children
              else st.childCount n.tid) = _
          rw [if_pos hntid, hntid, hcc0,
            if_pos (List.mem_cons_self e P)]
          omega
        · rw [hmn]
          show st.completed n.tid = _
          rw [hntid, hcon0, hz1, hz3]
        · rw [hmn]
          show st.failed n.tid = _
          rw [hntid, hfn0, hz2, hz4]
      · obtain ⟨hs, hc, hco, hf⟩ := hnodes m hm
        have hmne : m.tid ≠ e := fun hh =>
          hmn (subT_tid_uniq t hnd m hm n hnsub (by rw [hh, hntid]))
        obtain ⟨hd1, hd2, hd3⟩ := hstab m hm hmn
        refine ⟨?_, ?_, ?_, ?_⟩
        · show (if m.tid = e then Status.processing else st.status m.tid) = _
          rw [if_neg hmne, hs]
          unfold statusOf
          rw [hd3]
          by_cases h : m.tid ∈ P
          · rw [if_pos h, if_pos (List.mem_cons_of_mem e h)]
          · have hmem2 : m.tid ∉ e :: P := by
              rw [List.mem_cons]
              rintro (h1 | h1)
              · exact hmne h1
              · exact h h1
            rw [if_neg h, if_neg hmem2]
        · show (if m.tid = e then st.childCount m.tid + flen n.children
              else st.childCount m.tid) = _
          rw [if_neg hmne, hc]
          by_cases h : m.tid ∈ P
          · rw [if_pos h, if_pos (List.mem_cons_of_mem e h)]
          · have hmem2 : m.tid ∉ e :: P := by
              rw [List.mem_cons]
              rintro (h1 | h1)
              · exact hmne h1
              · exact h h1
            rw [if_neg h, if_neg hmem2]
        · show st.completed m.tid = _
          rw [hco, hd1]
        · show st.failed m.tid = _
          rw [hf, hd2]
    · show st.notes = _
      rw [hnotesNil,
        settledT_false_of_missing (e :: P) t c0.tid
          (ids_sub_of_mem_subT t n hnsub c0.tid
            (ids_children_sub n c0.tid
              (child_ids_sub n c0 hc0 c0.tid (tid_mem_idsT c0))))
          hc0eP]
      rfl

theorem run_lemma (t : JTree) (hnd : (idsT t).Nodup)
    (hwf2 : ∀ s ∈ subT t, s.fl = true → flen s.children = 0) :
    (es : List Nat) → (P : List Nat) → (st : St) →
    validB t P es = true → Inv t P st → ParentClosed t P →
    Inv t (es.reverse ++ P) (run t es st)
    ∧ ParentClosed t (es.reverse ++ P)
  | [], _, _, _, hInv, hPC => ⟨hInv, hPC⟩
  | e :: es, P, st, hval, hInv, hPC => by
      rw [validB, Bool.and_eq_true, Bool.and_eq_true, Bool.and_eq_true] at hval
      obtain ⟨⟨⟨h1, h2⟩, h3⟩, h4⟩ := hval
      have heT : e ∈ idsT t := of_decide_eq_true h1
      have heP : e ∉ P := of_decide_eq_true h2
      have hpar : ∀ p rest, chT e t = some (p :: rest) → p ∈ P := by
        intro p rest hr
        rw [hr] at h3
        exact of_decide_eq_true h3
      have hstep := step_lemma t hnd hwf2 P st hInv hPC e heT heP hpar
      have hPC2 : ParentClosed t (e :: P) := parentClosed_cons t P hPC e hpar
      have hrec := run_lemma t hnd hwf2 es (e :: P) (step t st e) h4 hstep hPC2
      rw [List.reverse_cons, List.append_assoc]
      exact hrec

end Sched

open Sched

/-- C1 (amended).  For a well-formed job tree and any valid schedule: once
every job of the tree has been processed, the completion-notification queue
holds exactly one entry, the root id, unless the root itself failed, in
which case it holds none; at every earlier point of the schedule (a prefix
missing some job of the tree) the queue is empty, so the notification comes
only after the last terminal commit; and at every point the queue is
either empty or the single root id, so a non-root job is never notified
and the root never twice. -/
theorem root_notification (t : JTree) (hwf : wfT t) (es : List Nat)
    (hval : validB t [] es = true) :
    ((∀ x ∈ idsT t, x ∈ es) →
        (run t es stInit).notes = (if t.fl then [] else [t.tid]))
    ∧ (∀ es1 es2, es = es1 ++ es2 →
        (∃ x ∈ idsT t, x ∉ es1) → (run t es1 stInit).notes = [])
    ∧ (∀ es1 es2, es = es1 ++ es2 →
        (run t es1 stInit).notes = []
        ∨ (run t es1 stInit).notes = [t.tid]) := by
  obtain ⟨hnd, hwf2⟩ := hwf
  have hmain : ∀ es1, validB t [] es1 = true →
      (run t es1 stInit).notes
        = (if settledT (es1.reverse ++ []) t && !t.fl then [t.tid] else []) := by
    intro es1 hv
    obtain ⟨hInv, _⟩ := run_lemma t hnd hwf2 es1 [] stInit hv (inv_init t)
      (fun j hj => absurd hj (List.not_mem_nil j))
    rw [Sched.Inv] at hInv
    exact hInv.2
  refine ⟨?_, ?_, ?_⟩
  · intro hall
    rw [hmain es hval]
    have hset : settledT (es.reverse ++ []) t = true := by
      rw [settledT_iff]
      intro x hx
      rw [List.append_nil, List.mem_reverse]
      exact hall x hx
    rw [hset]
    cases hfl : t.fl with
    | true => rfl
    | false => rfl
  · intro es1 es2 heq hex
    obtain ⟨x, hx, hxn⟩ := hex
    have hv1 : validB t [] es1 = true :=
      validB_append t es1 [] es2 (by rw [← heq]; exact hval)
    rw [hmain es1 hv1,
      settledT_false_of_missing (es1.reverse ++ []) t x hx (by
        rw [List.append_nil, List.mem_reverse]; exact hxn)]
    rfl
  · intro es1 es2 heq
    have hv1 : validB t [] es1 = true :=
      validB_append t es1 [] es2 (by rw [← heq]; exact hval)
    rw [hmain es1 hv1]
    by_cases h : (settledT (es1.reverse ++ []) t && !t.fl) = true
    · rw [if_pos h]
      exact Or.inr rfl
    · rw [if_neg h]
      exact Or.inl rfl

/-- C1 witness: a two-job tree (root 0 spawning child 1, both succeeding)
run to completion queues exactly the root notification. -/
theorem root_notification_witness :
    (run (JTree.node 0 false (JForest.fcons
        (JTree.node 1 false JForest.fnil) JForest.fnil))
      [0, 1] stInit).notes = [0] :=
  (root_notification _ ⟨by decide, by decide⟩ [0, 1] (by decide)).1 (by decide)

/-- C1 counterexample: a root whose own processing fails reaches a
terminal state for every descendant (itself), yet no completion
notification is ever queued, against the claim that the root notification
fires exactly once for every tree whose jobs all reach a terminal state. -/
theorem failed_root_no_notification :
    validB (JTree.node 0 true JForest.fnil) [] [0] = true
    ∧ (∀ x ∈ idsT (JTree.node 0 true JForest.fnil), x ∈ [0])
    ∧ (run (JTree.node 0 true JForest.fnil) [0] stInit).notes = [] := by
  refine ⟨by decide, by decide, ?_⟩
  rfl

/-- C2 (amended, on StatusManager.checkAndMarkParentDone).  One rollup
step at parent p: the parent's child_jobs_completed is incremented by one
exactly when the triggering child's status is done, and the parent's
status is set to done exactly when, with the possibly incremented
completed counter, child_jobs_completed + child_jobs_failed reaches a
positive child_jobs_count; otherwise the parent's status is left
unchanged. -/
theorem rollup_increment_and_flip (j p : Nat) (rest : List Nat) (st : St)
    (hp : p ∉ rest) :
    ((checkAndMarkParentDone j (p :: rest) st).completed p
        = st.completed p + (if st.status j = Status.done then 1 else 0))
    ∧ ((st.childCount p
          ≤ st.completed p + (if st.status j = Status.done then 1 else 0)
            + st.failed p
        ∧ 0 < st.childCount p) →
        (checkAndMarkParentDone j (p :: rest) st).status p = Status.done)
    ∧ (¬ (st.childCount p
          ≤ st.completed p + (if st.status j = Status.done then 1 else 0)
            + st.failed p
        ∧ 0 < st.childCount p) →
        (checkAndMarkParentDone j (p :: rest) st).status p = st.status p) := by
  obtain ⟨st1, hst1def⟩ :
      ∃ s, (if st.status j = Status.done then incCompleted p st else st) = s :=
    ⟨_, rfl⟩
  have hst1status : st1.status = st.status := by
    rw [← hst1def]
    by_cases h : st.status j = Status.done
    · rw [if_pos h]; rfl
    · rw [if_neg h]
  have hst1cc : st1.childCount = st.childCount := by
    rw [← hst1def]
    by_cases h : st.status j = Status.done
    · rw [if_pos h]; rfl
    · rw [if_neg h]
  have hst1failed : st1.failed = st.failed := by
    rw [← hst1def]
    by_cases h : st.status j = Status.done
    · rw [if_pos h]; rfl
    · rw [if_neg h]
  have hst1cop : st1.completed p
      = st.completed p + (if st.status j = Status.done then 1 else 0) := by
    rw [← hst1def]
    by_cases h : st.status j = Status.done
    · rw [if_pos h, if_pos h]
      show (if p = p then st.completed p + 1 else st.completed p) = _
      rw [if_pos rfl]
    · rw [if_neg h, if_neg h]
      omega
  have hcond : (st1.childCount p ≤ st1.completed p + st1.failed p
        ∧ 0 < st1.childCount p)
      ↔ (st.childCount p
          ≤ st.completed p + (if st.status j = Status.done then 1 else 0)
            + st.failed p
        ∧ 0 < st.childCount p) := by
    rw [hst1cc, hst1failed, hst1cop]
  cases rest with
  | nil =>
      rw [checkAndMarkParentDone_one, hst1def]
      by_cases hc : st1.childCount p ≤ st1.completed p + st1.failed p
          ∧ 0 < st1.childCount p
      · rw [if_pos hc]
        refine ⟨?_, ?_, ?_⟩
        · show st1.completed p = _
          exact hst1cop
        · intro _
          show (if p = p then Status.done else st1.status p) = _
          rw [if_pos rfl]
        · intro hn
          exact absurd (hcond.mp hc) hn
      · rw [if_neg hc]
        refine ⟨hst1cop, ?_, ?_⟩
        · intro h
          exact absurd (hcond.mpr h) hc
        · intro _
          show st1.status p = _
          rw [hst1status]
  | cons q rest2 =>
      have hprest : p ∉ q :: rest2 := hp
      rw [checkAndMarkParentDone_cons2, hst1def]
      by_cases hc : st1.childCount p ≤ st1.completed p + st1.failed p
          ∧ 0 < st1.childCount p
      · rw [if_pos hc]
        obtain ⟨hfs, hfc⟩ :=
          rollup_frame (q :: rest2) p (setStatus p Status.done st1) p hprest
        refine ⟨?_, ?_, ?_⟩
        · rw [hfc]
          show st1.completed p = _
          exact hst1cop
        · intro _
          rw [hfs]
          show (if p = p then Status.done else st1.status p) = _
          rw [if_pos rfl]
        · intro hn
          exact absurd (hcond.mp hc) hn
      · rw [if_neg hc]
        refine ⟨hst1cop, ?_, ?_⟩
        · intro h
          exact absurd (hcond.mpr h) hc
        · intro _
          show st1.status p = _
          rw [hst1status]

/-- C2 witness: a done child under a parent with two children, one
already failed: the rollup adds the one missing completion and flips the
parent to done. -/
theorem rollup_increment_and_flip_witness :
    ((checkAndMarkParentDone 5 [7]
        (St.mk (fun k => if k = 5 then Status.done else Status.new)
          (fun _ => 2) (fun _ => 1) (fun _ => 0) [])).completed 7
      = 1 + 1)
    ∧ (checkAndMarkParentDone 5 [7]
        (St.mk (fun k => if k = 5 then Status.done else Status.new)
          (fun _ => 2) (fun _ => 1) (fun _ => 0) [])).status 7
      = Status.done := by
  have h := rollup_increment_and_flip 5 7 []
    (St.mk (fun k => if k = 5 then Status.done else Status.new)
      (fun _ => 2) (fun _ => 1) (fun _ => 0) []) (List.not_mem_nil 7)
  refine ⟨?_, h.2.1 (by decide)⟩
  rw [h.1]
  decide

/-- C2 counterexample: the superseded provider.checkAndMarkParentDone
increments the parent's completed counter although the triggering child's
status is failed (it never reads that status), and it does not flip the
parent to done although completed + failed reaches the positive count,
because its flip condition ignores the failed counter. -/
theorem legacy_rollup_counterexample :
    ((legacyCheckAndMarkParentDone [7]
        (St.mk (fun _ => Status.failed) (fun _ => 2) (fun _ => 0)
          (fun _ => 2) [])).completed 7 = 1)
    ∧ ((legacyCheckAndMarkParentDone [7]
        (St.mk (fun _ => Status.failed) (fun _ => 2) (fun _ => 0)
          (fun _ => 2) [])).status 7 ≠ Status.done) := by
  refine ⟨rfl, ?_⟩
  intro h
  exact Status.noConfusion h

/-- C3 (confirmed).  After any valid schedule, every job row satisfies
child_jobs_completed + child_jobs_failed ≤ child_jobs_count, and once
every job of the tree has been processed the inequality is an equality and
the row's status is done or failed. -/
theorem counter_conservation (t : JTree) (hwf : wfT t) (es : List Nat)
    (hval : validB t [] es = true) (n : JTree) (hn : n ∈ subT t) :
    ((run t es stInit).completed n.tid + (run t es stInit).failed n.tid
        ≤ (run t es stInit).childCount n.tid)
    ∧ ((∀ x ∈ idsT t, x ∈ es) →
        ((run t es stInit).completed n.tid + (run t es stInit).failed n.tid
            = (run t es stInit).childCount n.tid)
        ∧ ((run t es stInit).status n.tid = Status.done
            ∨ (run t es stInit).status n.tid = Status.failed)) := by
  obtain ⟨hnd, hwf2⟩ := hwf
  obtain ⟨hInv, hPC⟩ := run_lemma t hnd hwf2 es [] stInit hval (inv_init t)
    (fun j hj => absurd hj (List.not_mem_nil j))
  rw [Sched.Inv] at hInv
  obtain ⟨hnodes, _⟩ := hInv
  obtain ⟨hs, hc, hco, hf⟩ := hnodes n hn
  constructor
  · rw [hco, hf, hc]
    by_cases h : n.tid ∈ es.reverse ++ []
    · rw [if_pos h]
      have := counts_le_flen (es.reverse ++ []) n.children
      omega
    · rw [if_neg h]
      obtain ⟨hz1, hz2⟩ := counts_zero (es.reverse ++ []) n.children
        (children_unsettled t hnd (es.reverse ++ []) hPC n hn h)
      omega
  · intro hall
    have hmemP : ∀ x ∈ idsT t, x ∈ es.reverse ++ [] := by
      intro x hx
      rw [List.append_nil, List.mem_reverse]
      exact hall x hx
    have hset : settledT (es.reverse ++ []) n = true := by
      rw [settledT_iff]
      intro x hx
      exact hmemP x (ids_sub_of_mem_subT t n hn x hx)
    have hmem : n.tid ∈ es.reverse ++ [] :=
      hmemP n.tid (ids_sub_of_mem_subT t n hn n.tid (tid_mem_idsT n))
    have hsf : settledF (es.reverse ++ []) n.children = true := by
      rw [settledT_unfold, Bool.and_eq_true] at hset
      exact hset.2
    refine ⟨?_, ?_⟩
    · rw [hco, hf, hc, if_pos hmem]
      have hle := counts_le_flen (es.reverse ++ []) n.children
      have hge := (counts_ge_iff_settled (es.reverse ++ []) n.children).mpr hsf
      omega
    · rw [hs, statusOf_settled t hwf2 n hn (es.reverse ++ []) hset hmem]
      cases hfl : n.fl with
      | true => exact Or.inr rfl
      | false => exact Or.inl rfl

/-- C3 witness: root 0 spawning one failing child 1; after the full run
the root's counters agree (0 completed + 1 failed = 1 child) and the root
is done. -/
theorem counter_conservation_witness :
    ((run (JTree.node 0 false (JForest.fcons
          (JTree.node 1 true JForest.fnil) JForest.fnil))
        [0, 1] stInit).completed 0
      + (run (JTree.node 0 false (JForest.fcons
          (JTree.node 1 true JForest.fnil) JForest.fnil))
        [0, 1] stInit).failed 0
      = (run (JTree.node 0 false (JForest.fcons
          (JTree.node 1 true JForest.fnil) JForest.fnil))
        [0, 1] stInit).childCount 0)
    ∧ ((run (JTree.node 0 false (JForest.fcons
          (JTree.node 1 true JForest.fnil) JForest.fnil))
        [0, 1] stInit).status 0 = Status.done
      ∨ (run (JTree.node 0 false (JForest.fcons
          (JTree.node 1 true JForest.fnil) JForest.fnil))
        [0, 1] stInit).status 0 = Status.failed) :=
  (counter_conservation
    (JTree.node 0 false (JForest.fcons
      (JTree.node 1 true JForest.fnil) JForest.fnil))
    ⟨by decide, by decide⟩ [0, 1] (by decide)
    (JTree.node 0 false (JForest.fcons
      (JTree.node 1 true JForest.fnil) JForest.fnil))
    (by decide)).2 (by decide)

/-- C4 (confirmed).  MarkDone with zero children created sets the job
done, queues the completion notification exactly when the job is a root
(empty ancestor chain) with child_jobs_count zero, and then runs the
parent rollup on that state; with a positive childrenCreated it only sets
the status to processing, leaving every counter and the notification
queue untouched. -/
theorem markDone_branches (j : Nat) (chain : List Nat) (cc : Nat) (st : St) :
    (markDone j chain 0 st
        = checkAndMarkParentDone j chain
            (if chain = [] ∧ st.childCount j = 0
              then emit j (setStatus j Status.done st)
              else setStatus j Status.done st))
    ∧ (cc ≠ 0 → markDone j chain cc st = setStatus j Status.processing st) :=
  ⟨markDone_zero j chain st, fun h => markDone_pos j chain cc h st⟩

/-- C4 witness: MarkDone with two children created only moves job 3 to
processing. -/
theorem markDone_branches_witness :
    (2 : Nat) ≠ 0
    ∧ markDone 3 [] 2 stInit = setStatus 3 Status.processing stInit :=
  ⟨by decide, (markDone_branches 3 [] 2 stInit).2 (by decide)⟩
